import Mathlib

/-!
Verification of the Data Availability core of the `hyle` repository
(`src/data_availability.rs`), shallowly embedded in Lean 4.

The embedding follows the source file `src/data_availability.rs`:
`handle_signed_block`, `pop_buffer`, `add_processed_block`,
`start_streaming_to_peer`, `handle_mempool_event`, and the event-loop
branches of `DataAvailability::start` are each translated to a Lean
definition of the same name.  The block store backend (`blocks_fjall.rs` /
`blocks_memory.rs`), the codec and the `SignedBlock` model type are not part
of the sources; they are modelled from the specification (§3, §4.1, §6) and
each such definition is marked `Modelled from the spec`.
-/

namespace DAcore

/-- Modelled from the spec: block hashes (`ConsensusProposalHash`) are opaque
equality-comparable identifiers; we model them as naturals. -/
abbrev Hash := Nat

/-- Modelled from the spec (§3): a `SignedBlock` carries (at least) a content
hash, a parent hash and a height.  The real type computes `hash()` from its
contents; here it is an abstract field, constrained by hypotheses (injectivity
along a chain) where the claims need it. -/
structure SignedBlock where
  height : Nat
  parent_hash : Nat
  hash : Nat
deriving DecidableEq, Repr

/-- Modelled from the spec (§4.1): `Blocks::contains`, a point query by hash. -/
def containsHash (stored : List SignedBlock) (h : Hash) : Bool :=
  stored.any (fun b => b.hash == h)

/-- Modelled from the spec (§4.1): `Blocks::get`, a point query by hash. -/
def blocksGet (stored : List SignedBlock) (h : Hash) : Option SignedBlock :=
  stored.find? (fun b => b.hash == h)

/-- Modelled from the spec (§4.1): `Blocks::last` reflects the maximum-height
block present. -/
def blocksLast : List SignedBlock → Option SignedBlock
  | [] => none
  | b :: rest => some (rest.foldl (fun acc x => if acc.height < x.height then x else acc) b)

/-- Insertion of a block into a height-sorted list (stable). -/
def insertByHeight (b : SignedBlock) : List SignedBlock → List SignedBlock
  | [] => [b]
  | x :: xs => if b.height < x.height then b :: x :: xs else x :: insertByHeight b xs

/-- Insertion sort by height (stable). -/
def sortByHeight : List SignedBlock → List SignedBlock
  | [] => []
  | x :: xs => insertByHeight x (sortByHeight xs)

/-- Modelled from the spec (§4.1): `Blocks::range (a, b)` yields the stored
blocks whose height lies in `[a, b)`, in ascending height order. -/
def blocksRange (stored : List SignedBlock) (a b : Nat) : List SignedBlock :=
  sortByHeight (stored.filter (fun blk => decide (a ≤ blk.height) && decide (blk.height < b)))

/-- Modelled from the spec (§3): the reorder buffer (`BTreeSet<SignedBlock>`)
orders blocks by the key `(height, hash)`. -/
def keyBlt (a b : SignedBlock) : Bool :=
  decide (a.height < b.height ∨ (a.height = b.height ∧ a.hash < b.hash))

/-- Equality of reorder-buffer keys `(height, hash)`. -/
def keyBeq (a b : SignedBlock) : Bool :=
  decide (a.height = b.height ∧ a.hash = b.hash)

/-- `BTreeSet::insert` on the key-sorted list representation of the reorder
buffer: insert in key order, and do nothing when the key is already present. -/
def insertBuffer (b : SignedBlock) : List SignedBlock → List SignedBlock
  | [] => [b]
  | x :: xs =>
    if keyBlt b x then b :: x :: xs
    else if keyBeq b x then x :: xs
    else x :: insertBuffer b xs

/-- The part of the `DataAvailability` struct state that `add_processed_block`
touches: the block store contents (in commit order) and
`stream_peer_metadata` (peer ip, `last_ping`). -/
structure Core where
  stored : List SignedBlock
  stream_peer_metadata : List (String × Nat)
deriving DecidableEq, Repr

/-- The observable effects of one call into the pipeline: `OrderedSignedBlock`
bus emissions, fan-out sends (peer ip, block), and aborted peer reader tasks
(peer ips removed from the table). -/
structure Output where
  emitted : List SignedBlock
  sent : List (String × SignedBlock)
  aborted : List String
deriving DecidableEq, Repr

def noOutput : Output := ⟨[], [], []⟩

def Output.append (a b : Output) : Output :=
  ⟨a.emitted ++ b.emitted, a.sent ++ b.sent, a.aborted ++ b.aborted⟩

instance : Append Output := ⟨Output.append⟩

/-- The fan-out loop of `add_processed_block` (data_availability.rs:363-384):
walk the peer table in order, collecting the ids to remove (`to_remove`) and
the performed sends.  A peer whose `last_ping + 60*5` is before `now` times
out; otherwise the block is sent, and a failed send also marks the peer for
removal.  `sendOk` is the environment's answer to each send attempt. -/
def fanoutScan (sendOk : String → SignedBlock → Bool) (now : Nat) (block : SignedBlock) :
    List (String × Nat) → List String × List (String × SignedBlock)
  | [] => ([], [])
  | (peer_id, last_ping) :: rest =>
    let r := fanoutScan sendOk now block rest
    if last_ping + 60 * 5 < now then (peer_id :: r.1, r.2)
    else if sendOk peer_id block then (r.1, (peer_id, block) :: r.2)
    else (peer_id :: r.1, r.2)

/-- `DataAvailability::add_processed_block` (data_availability.rs:336-394):
`put` the block (a failed put is logged and the function returns with no
fan-out and no emission), stream it to the live peers evicting timed-out or
failing ones, then emit `DataEvent::OrderedSignedBlock`.  `putOk` is the
environment's answer to the store `put`. -/
def add_processed_block (putOk : SignedBlock → Bool) (sendOk : String → SignedBlock → Bool)
    (now : Nat) (core : Core) (block : SignedBlock) : Core × Output :=
  if putOk block then
    let scan := fanoutScan sendOk now block core.stream_peer_metadata
    (⟨core.stored ++ [block],
      core.stream_peer_metadata.filter (fun p => !(scan.1.contains p.1))⟩,
     ⟨[block], scan.2, scan.1⟩)
  else (core, noOutput)

/-- `DataAvailability::pop_buffer` (data_availability.rs:315-334): starting
from `last_block_hash`, repeatedly inspect the least `(height, hash)` buffered
block; if its parent hash matches, remove it, set the running hash to its hash
and commit it through `add_processed_block`; stop at the first mismatch.
The buffer is the key-sorted list, so its head is the least element. -/
def pop_buffer (putOk : SignedBlock → Bool) (sendOk : String → SignedBlock → Bool)
    (now : Nat) : List SignedBlock → Hash → Core → List SignedBlock × Core × Output
  | [], _, core => ([], core, noOutput)
  | first :: rest, last_block_hash, core =>
    if first.parent_hash == last_block_hash then
      let p := add_processed_block putOk sendOk now core first
      let r := pop_buffer putOk sendOk now rest first.hash p.1
      (r.1, r.2.1, p.2 ++ r.2.2)
    else (first :: rest, core, noOutput)

/-- The `DataAvailability` struct fields the claims touch: the block store and
reorder buffer (grouped in `Core` together with `stream_peer_metadata`), and
the catch-up state (`need_catchup`, `catchup_task`, `catchup_height`). -/
structure DAState where
  core : Core
  buffered_signed_blocks : List SignedBlock
  need_catchup : Bool
  catchup_task : Option Unit
  catchup_height : Option Nat
deriving DecidableEq, Repr

/-- `DataAvailability::handle_signed_block` (data_availability.rs:278-313):
drop already-known blocks; buffer a block whose parent is unknown (or, on an
empty store, whose height is not 0); otherwise commit it and drain the
reorder buffer starting from its hash. -/
def handle_signed_block (putOk : SignedBlock → Bool) (sendOk : String → SignedBlock → Bool)
    (now : Nat) (s : DAState) (block : SignedBlock) : DAState × Output :=
  let hsh := block.hash
  if containsHash s.core.stored hsh then (s, noOutput)
  else if !s.core.stored.isEmpty && !containsHash s.core.stored block.parent_hash then
    ({ s with buffered_signed_blocks := insertBuffer block s.buffered_signed_blocks }, noOutput)
  else if s.core.stored.isEmpty && !(block.height == 0) then
    ({ s with buffered_signed_blocks := insertBuffer block s.buffered_signed_blocks }, noOutput)
  else
    let p := add_processed_block putOk sendOk now s.core block
    let r := pop_buffer putOk sendOk now s.buffered_signed_blocks hsh p.1
    ({ s with core := r.2.1, buffered_signed_blocks := r.1 }, p.2 ++ r.2.2)

/-- Deliver a list of blocks to `handle_signed_block` in order, concatenating
the outputs. -/
def run (putOk : SignedBlock → Bool) (sendOk : String → SignedBlock → Bool)
    (now : Nat) (s : DAState) : List SignedBlock → DAState × Output
  | [] => (s, noOutput)
  | b :: bs =>
    let p := handle_signed_block putOk sendOk now s b
    let r := run putOk sendOk now p.1 bs
    (r.1, p.2 ++ r.2)

/-- The store `put` oracle of a healthy environment: every put succeeds. -/
def allPutsOk : SignedBlock → Bool := fun _ => true

/-- The send oracle of a healthy environment: every send succeeds. -/
def allSendsOk : String → SignedBlock → Bool := fun _ _ => true

/-- The empty `DataAvailability` state (empty store, empty buffer, no peers,
no catch-up in progress). -/
def initState : DAState := ⟨⟨[], []⟩, [], false, none, none⟩

/-- Modelled from the spec (§6): client-to-server stream frames are the tagged
union `{ BlockHeight(u64), Ping }` (`DataAvailabilityServerRequest` of the
codec module, which is not among the sources). -/
inductive DataAvailabilityServerRequest
  | BlockHeight (h : Nat)
  | Ping
deriving DecidableEq, Repr

/-- The handshake read of `DataAvailability::start`
(data_availability.rs:188-201): await exactly one client frame;
`Some(Ok(BlockHeight h))` yields the start height, a `Ping` first frame is a
protocol error, and a read failure (`Some(Err _)`) or end of stream (`None`)
is `"no start height"`. -/
def read_start_height :
    Option (Except Unit DataAvailabilityServerRequest) → Except String Nat
  | some (Except.ok (DataAvailabilityServerRequest.BlockHeight h)) => Except.ok h
  | some (Except.ok DataAvailabilityServerRequest.Ping) =>
      Except.error "Got a ping instead of a block height"
  | some (Except.error _) => Except.error "no start height"
  | none => Except.error "no start height"

/-- `HashMap::insert` on the peer table: the new binding replaces any existing
binding of the same ip. -/
def insertPeer (peer_ip : String) (now : Nat) (peers : List (String × Nat)) :
    List (String × Nat) :=
  (peer_ip, now) :: peers.filter (fun p => !(p.1 == peer_ip))

/-- `DataAvailability::start_streaming_to_peer` (data_availability.rs:396-451):
register the peer in `stream_peer_metadata` with a fresh `last_ping`, then
snapshot the hashes of the stored range `[start_height, last().height + 1)`
(in ascending height order), reverse them (they are later popped from the
back) and hand them to the catch-up channel together with the peer ip. -/
def start_streaming_to_peer (now : Nat) (s : DAState) (start_height : Nat)
    (peer_ip : String) : DAState × (List Hash × String) :=
  let s' := { s with
    core := { s.core with
      stream_peer_metadata := insertPeer peer_ip now s.core.stream_peer_metadata } }
  let upper := ((blocksLast s'.core.stored).map (fun b => b.height)).getD start_height + 1
  let processed_block_hashes :=
    ((blocksRange s'.core.stored start_height upper).map (fun b => b.hash)).reverse
  (s', (processed_block_hashes, peer_ip))

/-- The pending-stream-request completion branch of `DataAvailability::start`
(data_availability.rs:186-217): the spawned handshake read produced
`firstFrame`; on `BlockHeight h` the peer is enrolled through
`start_streaming_to_peer`, on any error the connection is dropped and the
state is untouched. -/
def handle_stream_request (now : Nat) (s : DAState) (peer_ip : String)
    (firstFrame : Option (Except Unit DataAvailabilityServerRequest)) :
    DAState × Option (List Hash × String) :=
  match read_start_height firstFrame with
  | Except.ok start_height =>
    let r := start_streaming_to_peer now s start_height peer_ip
    (r.1, some r.2)
  | Except.error _ => (s, none)

/-- The keep-alive branch of `DataAvailability::start`
(data_availability.rs:241-245): an inbound frame from a peer resets that
peer's `last_ping` to the current time (and is ignored for unknown peers). -/
def handle_ping (now : Nat) (s : DAState) (peer_id : String) : DAState :=
  { s with core := { s.core with
      stream_peer_metadata := s.core.stream_peer_metadata.map
        (fun p => if p.1 == peer_id then (p.1, now) else p) } }

/-- `MempoolEvent` (consumed bus messages, spec §6). -/
inductive MempoolEvent
  | BuiltSignedBlock (b : SignedBlock)
  | StartedBuildingBlocks (height : Nat)
deriving DecidableEq, Repr

/-- `DataAvailability::handle_mempool_event` (data_availability.rs:251-276):
a built block goes through `handle_signed_block`; `StartedBuildingBlocks h`
sets `catchup_height := h − 1` and, when a catch-up task is running and the
store has already reached `h`, aborts it and clears `need_catchup`.
The `h − 1` is `u64` subtraction on `BlockHeight` (hyle-model, not among the
sources); modelled from the spec as truncated natural subtraction. -/
def handle_mempool_event (putOk : SignedBlock → Bool) (sendOk : String → SignedBlock → Bool)
    (now : Nat) (s : DAState) : MempoolEvent → DAState × Output
  | MempoolEvent.BuiltSignedBlock b => handle_signed_block putOk sendOk now s b
  | MempoolEvent.StartedBuildingBlocks height =>
    let s1 := { s with catchup_height := some (height - 1) }
    match s1.catchup_task with
    | some _ =>
      if height ≤ ((blocksLast s1.core.stored).map (fun b => b.height)).getD 0 then
        ({ s1 with catchup_task := none, need_catchup := false }, noOutput)
      else (s1, noOutput)
    | none => (s1, noOutput)

/-- The catch-up block branch of `DataAvailability::start`
(data_availability.rs:165-182): a block received from the catch-up stream is
fed to `handle_signed_block`; afterwards, if a `catchup_height` target is set
and the received height has reached it, a running catch-up task is aborted
and `need_catchup` is cleared. -/
def handle_streamed_block (putOk : SignedBlock → Bool) (sendOk : String → SignedBlock → Bool)
    (now : Nat) (s : DAState) (streamed_block : SignedBlock) : DAState × Output :=
  let height := streamed_block.height
  let r := handle_signed_block putOk sendOk now s streamed_block
  let s1 := r.1
  match s1.catchup_height with
  | some until_height =>
    if until_height ≤ height then
      match s1.catchup_task with
      | some _ => ({ s1 with catchup_task := none, need_catchup := false }, r.2)
      | none => (s1, r.2)
    else (s1, r.2)
  | none => (s1, r.2)

/-- The catch-up send branch of `DataAvailability::start`
(data_availability.rs:221-239), specialised to one stream peer `ip`:
pop the last hash off the pending message; if a block with that hash is
stored and the peer is registered, send it and re-queue the remaining hashes,
otherwise the message is dropped.  `queue = none` means no message in flight. -/
def catchup_send_step (ip : String) (core : Core) (queue : Option (List Hash))
    (sent : List SignedBlock) : Option (List Hash) × List SignedBlock :=
  match queue with
  | none => (none, sent)
  | some block_hashes =>
    match block_hashes.getLast? with
    | none => (none, sent)
    | some hsh =>
      match blocksGet core.stored hsh with
      | none => (none, sent)
      | some signed_block =>
        if (core.stream_peer_metadata.find? (fun p => p.1 == ip)).isSome then
          (some block_hashes.dropLast, sent ++ [signed_block])
        else (none, sent)

/-- An event-loop step relevant to one stream peer: either the commit of a new
block (fan-out through `add_processed_block`), or one round of the catch-up
send branch. -/
inductive LoopEv
  | commit (b : SignedBlock)
  | catchup
deriving DecidableEq, Repr

/-- The event-loop state as seen by one stream peer `ip`: the `Core`, the
pending catch-up message for that peer, and the list of blocks delivered to
that peer so far (in delivery order). -/
structure LoopState where
  core : Core
  queue : Option (List Hash)
  sent : List SignedBlock
deriving DecidableEq, Repr

/-- One event-loop step, as observed by stream peer `ip`.  A `commit` runs
`add_processed_block` (in the healthy environment: puts and sends succeed)
and appends whatever was fanned out to `ip`; a `catchup` event runs one round
of the catch-up send branch. -/
def loopStep (now : Nat) (ip : String) (s : LoopState) : LoopEv → LoopState
  | LoopEv.commit b =>
    let p := add_processed_block allPutsOk allSendsOk now s.core b
    { core := p.1, queue := s.queue,
      sent := s.sent ++ p.2.sent.filterMap (fun e => if e.1 == ip then some e.2 else none) }
  | LoopEv.catchup =>
    let r := catchup_send_step ip s.core s.queue s.sent
    { s with queue := r.1, sent := r.2 }

/-- Run a sequence of event-loop steps. -/
def runLoop (now : Nat) (ip : String) : LoopState → List LoopEv → LoopState
  | s, [] => s
  | s, e :: evs => runLoop now ip (loopStep now ip s e) evs

/-! ### Basic lemmas about the pipeline -/

theorem add_processed_block_stored (putOk : SignedBlock → Bool)
    (sendOk : String → SignedBlock → Bool) (now : Nat) (core : Core) (b : SignedBlock) :
    (add_processed_block putOk sendOk now core b).1.stored
      = core.stored ++ (if putOk b then [b] else []) := by
  unfold add_processed_block
  split <;> simp

theorem pop_buffer_stored_append (putOk : SignedBlock → Bool)
    (sendOk : String → SignedBlock → Bool) (now : Nat) :
    ∀ (buf : List SignedBlock) (h : Hash) (core : Core),
      ∃ l, (pop_buffer putOk sendOk now buf h core).2.1.stored = core.stored ++ l := by
  intro buf
  induction buf with
  | nil => intro h core; exact ⟨[], by simp [pop_buffer]⟩
  | cons first rest ih =>
    intro h core
    unfold pop_buffer
    split
    · obtain ⟨l, hl⟩ := ih first.hash (add_processed_block putOk sendOk now core first).1
      refine ⟨(if putOk first then [first] else []) ++ l, ?_⟩
      simpa [add_processed_block_stored, List.append_assoc] using hl
    · exact ⟨[], by simp⟩

theorem handle_signed_block_catchup_fields (putOk : SignedBlock → Bool)
    (sendOk : String → SignedBlock → Bool) (now : Nat) (s : DAState) (b : SignedBlock) :
    (handle_signed_block putOk sendOk now s b).1.catchup_height = s.catchup_height ∧
    (handle_signed_block putOk sendOk now s b).1.catchup_task = s.catchup_task ∧
    (handle_signed_block putOk sendOk now s b).1.need_catchup = s.need_catchup := by
  unfold handle_signed_block
  split_ifs <;>
    by_cases h1 : containsHash s.core.stored b.hash = true <;> simp [h1]

@[simp] theorem Output.append_emitted (a b : Output) :
    (a ++ b).emitted = a.emitted ++ b.emitted := rfl

@[simp] theorem Output.append_sent (a b : Output) :
    (a ++ b).sent = a.sent ++ b.sent := rfl

@[simp] theorem Output.append_aborted (a b : Output) :
    (a ++ b).aborted = a.aborted ++ b.aborted := rfl

theorem add_processed_block_allOk (sendOk : String → SignedBlock → Bool) (now : Nat)
    (core : Core) (b : SignedBlock) :
    add_processed_block allPutsOk sendOk now core b
      = (⟨core.stored ++ [b],
          core.stream_peer_metadata.filter
            (fun p => !((fanoutScan sendOk now b core.stream_peer_metadata).1.contains p.1))⟩,
         ⟨[b], (fanoutScan sendOk now b core.stream_peer_metadata).2,
          (fanoutScan sendOk now b core.stream_peer_metadata).1⟩) := by
  unfold add_processed_block allPutsOk
  simp

/-! ### C5: idempotence on already-accepted blocks -/

/-- C5.  `handle_signed_block` is idempotent on already-accepted blocks: for a
block whose hash is already in the store, re-delivering it produces no
`OrderedSignedBlock` emission, no fan-out send, no aborted reader task, and
no change to the `DataAvailability` state (store, reorder buffer, peer table
and catch-up state included); the block is merely dropped. -/
theorem claim_C5_duplicate_drop (putOk : SignedBlock → Bool)
    (sendOk : String → SignedBlock → Bool) (now : Nat) (s : DAState) (b : SignedBlock)
    (hdup : containsHash s.core.stored b.hash = true) :
    handle_signed_block putOk sendOk now s b = (s, noOutput) := by
  unfold handle_signed_block
  simp [hdup]

/-- Witness for C5 at a concrete store and block. -/
theorem claim_C5_duplicate_drop_witness :
    containsHash (⟨⟨[⟨0, 5, 1⟩], []⟩, [], false, none, none⟩ : DAState).core.stored
        (⟨0, 5, 1⟩ : SignedBlock).hash = true ∧
    handle_signed_block allPutsOk allSendsOk 7
        (⟨⟨[⟨0, 5, 1⟩], []⟩, [], false, none, none⟩ : DAState) ⟨0, 5, 1⟩
      = (⟨⟨[⟨0, 5, 1⟩], []⟩, [], false, none, none⟩, noOutput) :=
  ⟨by decide,
   claim_C5_duplicate_drop allPutsOk allSendsOk 7
     (⟨⟨[⟨0, 5, 1⟩], []⟩, [], false, none, none⟩ : DAState) ⟨0, 5, 1⟩ (by decide)⟩

/-! ### C9: a failed store put skips the block entirely -/

/-- C9.  If the store's `put` fails for a block during commit, that block is
skipped: `add_processed_block` performs no fan-out send, emits no
`OrderedSignedBlock`, evicts no peer, and leaves the store contents and peer
table exactly as they were — so the in-memory view does not advance past what
durable storage would show after a restart. -/
theorem claim_C9_put_failure_skips (putOk : SignedBlock → Bool)
    (sendOk : String → SignedBlock → Bool) (now : Nat) (core : Core) (b : SignedBlock)
    (hfail : putOk b = false) :
    add_processed_block putOk sendOk now core b = (core, noOutput) := by
  unfold add_processed_block
  simp [hfail]

/-- Witness for C9: a put oracle that always fails, at a concrete block. -/
theorem claim_C9_put_failure_skips_witness :
    ((fun _ => false) : SignedBlock → Bool) (⟨0, 0, 1⟩ : SignedBlock) = false ∧
    add_processed_block (fun _ => false) allSendsOk 3 ⟨[], [("p", 3)]⟩ ⟨0, 0, 1⟩
      = (⟨[], [("p", 3)]⟩, noOutput) :=
  ⟨rfl, claim_C9_put_failure_skips (fun _ => false) allSendsOk 3 ⟨[], [("p", 3)]⟩
      ⟨0, 0, 1⟩ rfl⟩

theorem handle_signed_block_commit (putOk : SignedBlock → Bool)
    (sendOk : String → SignedBlock → Bool) (now : Nat) (s : DAState) (b : SignedBlock)
    (hcon : containsHash s.core.stored b.hash = false)
    (hbuf1 : (!s.core.stored.isEmpty && !containsHash s.core.stored b.parent_hash) = false)
    (hbuf2 : (s.core.stored.isEmpty && !(b.height == 0)) = false) :
    handle_signed_block putOk sendOk now s b =
      ({ s with
          core := (pop_buffer putOk sendOk now s.buffered_signed_blocks b.hash
            (add_processed_block putOk sendOk now s.core b).1).2.1,
          buffered_signed_blocks := (pop_buffer putOk sendOk now s.buffered_signed_blocks b.hash
            (add_processed_block putOk sendOk now s.core b).1).1 },
       (add_processed_block putOk sendOk now s.core b).2 ++
         (pop_buffer putOk sendOk now s.buffered_signed_blocks b.hash
           (add_processed_block putOk sendOk now s.core b).1).2.2) := by
  unfold handle_signed_block
  simp [hcon, hbuf1, hbuf2]

/-! ### C6: on an empty store only height 0 bypasses the buffer -/

/-- C6.  For a block arriving while the store is empty, `handle_signed_block`
commits it (the block heads both the emission list and the new store
contents, bypassing the reorder buffer) if and only if its height is 0; a
block of any other height is placed in the reorder buffer and produces no
emission and no other state change. -/
theorem claim_C6_empty_store_genesis_gate (sendOk : String → SignedBlock → Bool)
    (now : Nat) (s : DAState) (b : SignedBlock) (hempty : s.core.stored = []) :
    ((handle_signed_block allPutsOk sendOk now s b).2.emitted.head? = some b ↔ b.height = 0) ∧
    ((handle_signed_block allPutsOk sendOk now s b).1.core.stored.head? = some b ↔ b.height = 0) ∧
    (b.height ≠ 0 →
      handle_signed_block allPutsOk sendOk now s b
        = ({ s with buffered_signed_blocks := insertBuffer b s.buffered_signed_blocks },
           noOutput)) := by
  have hcon : containsHash s.core.stored b.hash = false := by
    simp [containsHash, hempty]
  have hisEmpty : s.core.stored.isEmpty = true := by simp [hempty]
  by_cases h0 : b.height = 0
  · have hcommit := handle_signed_block_commit allPutsOk sendOk now s b hcon
      (by simp [hisEmpty]) (by simp [h0])
    obtain ⟨l, hl⟩ := pop_buffer_stored_append allPutsOk sendOk now
      s.buffered_signed_blocks b.hash (add_processed_block allPutsOk sendOk now s.core b).1
    rw [add_processed_block_stored] at hl
    refine ⟨?_, ?_, fun hne => absurd h0 hne⟩
    · simp [hcommit, h0, add_processed_block_allOk]
    · simp [hcommit, h0, hl, hempty, allPutsOk]
  · unfold handle_signed_block
    refine ⟨?_, ?_, fun _ => ?_⟩ <;>
      simp [containsHash, hempty, hisEmpty, h0, noOutput]

/-- Witness for C6: on the empty state, a height-0 block is emitted first,
and a height-3 block is buffered with no output. -/
theorem claim_C6_empty_store_genesis_gate_witness :
    initState.core.stored = [] ∧
    ((handle_signed_block allPutsOk allSendsOk 1 initState ⟨0, 0, 1⟩).2.emitted.head?
        = some ⟨0, 0, 1⟩ ↔ (⟨0, 0, 1⟩ : SignedBlock).height = 0) ∧
    (handle_signed_block allPutsOk allSendsOk 1 initState ⟨3, 0, 1⟩
        = ({ initState with
              buffered_signed_blocks := insertBuffer ⟨3, 0, 1⟩ initState.buffered_signed_blocks },
           noOutput)) :=
  ⟨rfl,
   (claim_C6_empty_store_genesis_gate allSendsOk 1 initState ⟨0, 0, 1⟩ rfl).1,
   (claim_C6_empty_store_genesis_gate allSendsOk 1 initState ⟨3, 0, 1⟩ rfl).2.2 (by decide)⟩

/-! ### C10: no height validation against the stored parent -/

/-- C10.  While the store is non-empty, whether `handle_signed_block` commits
an arriving block immediately is decided exactly by the two hash membership
tests — the block's hash is not yet stored and its parent hash is stored —
and by nothing else: in particular the height field is never validated, so a
block whose parent is stored is committed and emitted even when its height is
not `parent.height + 1`. -/
theorem claim_C10_no_height_validation (sendOk : String → SignedBlock → Bool)
    (now : Nat) (s : DAState) (b : SignedBlock)
    (hne : s.core.stored.isEmpty = false) :
    (handle_signed_block allPutsOk sendOk now s b).2.emitted.head? = some b
      ↔ (containsHash s.core.stored b.hash = false ∧
         containsHash s.core.stored b.parent_hash = true) := by
  by_cases hc : containsHash s.core.stored b.hash = true
  · unfold handle_signed_block
    simp [hc, noOutput]
  · by_cases hp : containsHash s.core.stored b.parent_hash = true
    · have hcommit := handle_signed_block_commit allPutsOk sendOk now s b
        (by simp [hc]) (by simp [hp]) (by simp [hne])
      simp [hcommit, hc, hp, add_processed_block_allOk]
    · unfold handle_signed_block
      simp [hc, hp, hne, noOutput]

/-- Witness for C10: the store holds only the genesis `⟨0, 5, 1⟩`; a block of
height 7 (not `0 + 1`) whose parent hash is the stored hash 1 is committed
and emitted immediately. -/
theorem claim_C10_no_height_validation_witness :
    (⟨⟨[⟨0, 5, 1⟩], []⟩, [], false, none, none⟩ : DAState).core.stored.isEmpty = false ∧
    (handle_signed_block allPutsOk allSendsOk 1
        (⟨⟨[⟨0, 5, 1⟩], []⟩, [], false, none, none⟩ : DAState)
        ⟨7, 1, 2⟩).2.emitted.head? = some ⟨7, 1, 2⟩ :=
  ⟨rfl,
   (claim_C10_no_height_validation allSendsOk 1
      (⟨⟨[⟨0, 5, 1⟩], []⟩, [], false, none, none⟩ : DAState) ⟨7, 1, 2⟩ rfl).mpr
     (by decide)⟩

/-! ### C8: liveness eviction at fan-out, ping refresh -/

theorem fanoutScan_sent_keys (sendOk : String → SignedBlock → Bool) (now : Nat)
    (b : SignedBlock) :
    ∀ peers, ∀ x ∈ (fanoutScan sendOk now b peers).2, x.1 ∈ peers.map Prod.fst := by
  intro peers
  induction peers with
  | nil => simp [fanoutScan]
  | cons p rest ih =>
    obtain ⟨pid, lp⟩ := p
    intro x hx
    simp only [fanoutScan] at hx
    split_ifs at hx
    · exact List.mem_cons_of_mem _ (ih x hx)
    · rcases List.mem_cons.mp hx with h | h
      · simp [h]
      · exact List.mem_cons_of_mem _ (ih x h)
    · exact List.mem_cons_of_mem _ (ih x hx)

theorem fanoutScan_timeout (sendOk : String → SignedBlock → Bool) (now : Nat)
    (b : SignedBlock) :
    ∀ peers (peer_ip : String) (lp : Nat), (peer_ip, lp) ∈ peers →
      (peers.map Prod.fst).Nodup → lp + 60 * 5 < now →
      peer_ip ∈ (fanoutScan sendOk now b peers).1 ∧
      ∀ x ∈ (fanoutScan sendOk now b peers).2, x.1 ≠ peer_ip := by
  intro peers
  induction peers with
  | nil => simp
  | cons p rest ih =>
    obtain ⟨pid, l⟩ := p
    intro peer_ip lp hmem hkeys htime
    rw [List.map_cons] at hkeys
    have hkey_head : pid ∉ rest.map Prod.fst := (List.nodup_cons.mp hkeys).1
    have hkeys_rest : (rest.map Prod.fst).Nodup := (List.nodup_cons.mp hkeys).2
    rcases List.mem_cons.mp hmem with heq | hrest
    · injection heq with h1 h2
      subst h1
      subst h2
      simp only [fanoutScan, if_pos htime]
      refine ⟨List.mem_cons_self _ _, fun x hx => ?_⟩
      intro hxeq
      refine hkey_head ?_
      rw [← hxeq]
      exact fanoutScan_sent_keys sendOk now b rest x hx
    · have hip_rest : peer_ip ∈ rest.map Prod.fst :=
        List.mem_map.mpr ⟨(peer_ip, lp), hrest, rfl⟩
      have ihr := ih peer_ip lp hrest hkeys_rest htime
      simp only [fanoutScan]
      split_ifs
      · exact ⟨List.mem_cons_of_mem _ ihr.1, ihr.2⟩
      · refine ⟨ihr.1, fun x hx => ?_⟩
        rcases List.mem_cons.mp hx with h | h
        · intro hxeq
          rw [h] at hxeq
          refine hkey_head ?_
          rw [show pid = (pid, b).1 from rfl, hxeq]
          exact hip_rest
        · exact ihr.2 x h
      · exact ⟨List.mem_cons_of_mem _ ihr.1, ihr.2⟩

/-- C8.  A block is never fanned out to a stream peer whose `last_ping` is
more than 300 seconds in the past: during `add_processed_block` such a peer
receives no send, its reader task is aborted, and it is removed from the peer
table.  Conversely an inbound frame (the keep-alive branch) resets the peer's
`last_ping` to the current time. -/
theorem claim_C8_liveness_eviction (putOk : SignedBlock → Bool)
    (sendOk : String → SignedBlock → Bool) (now : Nat) (s : DAState) (b : SignedBlock)
    (peer_ip : String) (lp : Nat)
    (hmem : (peer_ip, lp) ∈ s.core.stream_peer_metadata)
    (hkeys : (s.core.stream_peer_metadata.map Prod.fst).Nodup)
    (htime : lp + 300 < now) (hput : putOk b = true) :
    (∀ x ∈ (add_processed_block putOk sendOk now s.core b).2.sent, x.1 ≠ peer_ip) ∧
    peer_ip ∈ (add_processed_block putOk sendOk now s.core b).2.aborted ∧
    (∀ q ∈ (add_processed_block putOk sendOk now s.core b).1.stream_peer_metadata,
      q.1 ≠ peer_ip) ∧
    (peer_ip, now) ∈ (handle_ping now s peer_ip).core.stream_peer_metadata := by
  have htime5 : lp + 60 * 5 < now := by omega
  have hscan := fanoutScan_timeout sendOk now b s.core.stream_peer_metadata peer_ip lp
    hmem hkeys htime5
  refine ⟨?_, ?_, ?_, ?_⟩
  · intro x hx
    exact hscan.2 x (by simpa [add_processed_block, hput] using hx)
  · simpa [add_processed_block, hput] using hscan.1
  · intro q hq
    have hq' : q ∈ s.core.stream_peer_metadata.filter
        (fun p => !((fanoutScan sendOk now b s.core.stream_peer_metadata).1.contains p.1)) := by
      simpa [add_processed_block, hput] using hq
    have hnot := (List.mem_filter.mp hq').2
    intro hqeq
    simp [hqeq, List.elem_eq_mem, hscan.1] at hnot
  · refine List.mem_map.mpr ⟨(peer_ip, lp), hmem, ?_⟩
    simp

/-- Witness for C8: peer `"p"` last pinged at 0, fan-out at time 301. -/
theorem claim_C8_liveness_eviction_witness :
    ("p", 0) ∈ (⟨⟨[], [("p", 0)]⟩, [], false, none, none⟩ : DAState).core.stream_peer_metadata ∧
    "p" ∈ (add_processed_block allPutsOk allSendsOk 301
        (⟨⟨[], [("p", 0)]⟩, [], false, none, none⟩ : DAState).core ⟨0, 0, 1⟩).2.aborted ∧
    ("p", 301) ∈ (handle_ping 301 (⟨⟨[], [("p", 0)]⟩, [], false, none, none⟩ : DAState)
        "p").core.stream_peer_metadata :=
  ⟨by decide,
   (claim_C8_liveness_eviction allPutsOk allSendsOk 301
      (⟨⟨[], [("p", 0)]⟩, [], false, none, none⟩ : DAState) ⟨0, 0, 1⟩ "p" 0
      (by decide) (by decide) (by decide) rfl).2.1,
   (claim_C8_liveness_eviction allPutsOk allSendsOk 301
      (⟨⟨[], [("p", 0)]⟩, [], false, none, none⟩ : DAState) ⟨0, 0, 1⟩ "p" 0
      (by decide) (by decide) (by decide) rfl).2.2.2⟩

/-! ### C4: catch-up target and termination -/

/-- C4.  `MempoolEvent::StartedBuildingBlocks h` sets the catch-up target
`catchup_height` to `h − 1`; and whenever a streamed catch-up block arrives
(in particular whenever one is committed) whose height has reached the
target while a catch-up task is running, the task is aborted and
`need_catchup` is cleared. -/
theorem claim_C4_catchup_target (putOk : SignedBlock → Bool)
    (sendOk : String → SignedBlock → Bool) (now : Nat) (s : DAState) (h t : Nat)
    (b : SignedBlock) :
    (1 ≤ h →
      (handle_mempool_event putOk sendOk now s
          (MempoolEvent.StartedBuildingBlocks h)).1.catchup_height = some (h - 1)) ∧
    (s.catchup_height = some t → s.catchup_task = some () → t ≤ b.height →
      (handle_streamed_block putOk sendOk now s b).1.catchup_task = none ∧
      (handle_streamed_block putOk sendOk now s b).1.need_catchup = false) := by
  constructor
  · intro _
    cases hct : s.catchup_task <;>
      · simp only [handle_mempool_event, hct]
        try split
        all_goals simp
  · intro hch hct hle
    have hf := handle_signed_block_catchup_fields putOk sendOk now s b
    unfold handle_streamed_block
    simp only [hf.1, hf.2.1, hch, hct, hle, if_true]
    simp

/-- Witness for C4 at `h = 3`, target `2`, streamed height `5`. -/
theorem claim_C4_catchup_target_witness :
    (handle_mempool_event allPutsOk allSendsOk 0
        (⟨⟨[], []⟩, [], true, some (), some 2⟩ : DAState)
        (MempoolEvent.StartedBuildingBlocks 3)).1.catchup_height = some 2 ∧
    (handle_streamed_block allPutsOk allSendsOk 0
        (⟨⟨[], []⟩, [], true, some (), some 2⟩ : DAState) ⟨5, 0, 1⟩).1.catchup_task = none ∧
    (handle_streamed_block allPutsOk allSendsOk 0
        (⟨⟨[], []⟩, [], true, some (), some 2⟩ : DAState) ⟨5, 0, 1⟩).1.need_catchup = false :=
  ⟨(claim_C4_catchup_target allPutsOk allSendsOk 0
      (⟨⟨[], []⟩, [], true, some (), some 2⟩ : DAState) 3 2 ⟨5, 0, 1⟩).1 (by decide),
   ((claim_C4_catchup_target allPutsOk allSendsOk 0
      (⟨⟨[], []⟩, [], true, some (), some 2⟩ : DAState) 3 2 ⟨5, 0, 1⟩).2 rfl rfl
      (by decide)).1,
   ((claim_C4_catchup_target allPutsOk allSendsOk 0
      (⟨⟨[], []⟩, [], true, some (), some 2⟩ : DAState) 3 2 ⟨5, 0, 1⟩).2 rfl rfl
      (by decide)).2⟩

/-! ### C7: handshake — exactly one frame, `BlockHeight` or close -/

/-- C7.  On a new stream connection the server reads exactly one frame.  If it
is `BlockHeight h` the peer is enrolled (registered in the peer table) for
streaming from height `h` and the snapshot message is queued; for every other
first frame — a `Ping`, a decode failure or end of stream — the connection is
treated as a protocol error: the state is unchanged and the peer is not
enrolled. -/
theorem claim_C7_handshake (now : Nat) (s : DAState) (peer_ip : String)
    (firstFrame : Option (Except Unit DataAvailabilityServerRequest))
    (hfresh : ∀ q ∈ s.core.stream_peer_metadata, q.1 ≠ peer_ip) :
    (∀ h, firstFrame = some (Except.ok (DataAvailabilityServerRequest.BlockHeight h)) →
      (handle_stream_request now s peer_ip firstFrame).1.core.stream_peer_metadata
          = (peer_ip, now) :: s.core.stream_peer_metadata ∧
      (handle_stream_request now s peer_ip firstFrame).2
          = some ((start_streaming_to_peer now s h peer_ip).2)) ∧
    ((∀ h, firstFrame ≠ some (Except.ok (DataAvailabilityServerRequest.BlockHeight h))) →
      handle_stream_request now s peer_ip firstFrame = (s, none)) := by
  have hfilter : s.core.stream_peer_metadata.filter (fun p => !(p.1 == peer_ip))
      = s.core.stream_peer_metadata := by
    refine List.filter_eq_self.mpr fun q hq => ?_
    simpa using hfresh q hq
  constructor
  · rintro h rfl
    constructor
    · simp [handle_stream_request, read_start_height, start_streaming_to_peer,
        insertPeer, hfilter]
    · simp [handle_stream_request, read_start_height]
  · intro hno
    rcases firstFrame with _ | f
    · simp [handle_stream_request, read_start_height]
    · rcases f with e | r
      · simp [handle_stream_request, read_start_height]
      · rcases r with h | _
        · exact absurd rfl (hno h)
        · simp [handle_stream_request, read_start_height]

/-- Witness for C7: on the empty state, a `BlockHeight 4` first frame enrolls
the fresh peer `"p"`, while a `Ping` first frame leaves the state unchanged. -/
theorem claim_C7_handshake_witness :
    (∀ q ∈ initState.core.stream_peer_metadata, q.1 ≠ "p") ∧
    (handle_stream_request 9 initState "p"
        (some (Except.ok (DataAvailabilityServerRequest.BlockHeight 4)))).1.core.stream_peer_metadata
      = ("p", 9) :: initState.core.stream_peer_metadata ∧
    handle_stream_request 9 initState "p"
        (some (Except.ok DataAvailabilityServerRequest.Ping)) = (initState, none) :=
  ⟨by simp [initState],
   ((claim_C7_handshake 9 initState "p"
      (some (Except.ok (DataAvailabilityServerRequest.BlockHeight 4)))
      (by simp [initState])).1 4 rfl).1,
   (claim_C7_handshake 9 initState "p" (some (Except.ok DataAvailabilityServerRequest.Ping))
      (by simp [initState])).2 (by intro h; simp)⟩

/-! ### Parent-linked chains and the reorder-buffer order -/

/-- The first `k` blocks of an indexed chain, in order: the contents of the
store after the chain prefix of length `k` has been committed. -/
def chainPrefix (c : Nat → SignedBlock) (k : Nat) : List SignedBlock :=
  (List.range k).map c

/-- `c 0, c 1, …, c (n-1)` form a parent-linked chain: heights are the
indices, each block's parent hash is the previous block's hash, and hashes
are pairwise distinct. -/
structure IsChain (c : Nat → SignedBlock) (n : Nat) : Prop where
  height_eq : ∀ i, i < n → (c i).height = i
  parent_link : ∀ i, i + 1 < n → (c (i + 1)).parent_hash = (c i).hash
  hash_inj : ∀ i j, i < n → j < n → (c i).hash = (c j).hash → i = j

theorem chainPrefix_succ (c : Nat → SignedBlock) (k : Nat) :
    chainPrefix c (k + 1) = chainPrefix c k ++ [c k] := by
  simp [chainPrefix, List.range_succ]

theorem chainPrefix_isEmpty (c : Nat → SignedBlock) (k : Nat) :
    (chainPrefix c k).isEmpty = decide (k = 0) := by
  cases k <;> simp [chainPrefix, List.range_succ]

theorem containsHash_chainPrefix_iff {c : Nat → SignedBlock} {n : Nat}
    (hc : IsChain c n) {k i : Nat} (hk : k ≤ n) (hi : i < n) :
    containsHash (chainPrefix c k) (c i).hash = true ↔ i < k := by
  simp only [containsHash, chainPrefix, List.any_eq_true, List.mem_map, List.mem_range,
    beq_iff_eq]
  constructor
  · rintro ⟨b, ⟨j, hj, rfl⟩, heq⟩
    have := hc.hash_inj j i (lt_of_lt_of_le hj hk) hi heq
    omega
  · intro hik
    exact ⟨c i, ⟨i, hik, rfl⟩, rfl⟩

theorem keyBlt_trans {a b d : SignedBlock} (h1 : keyBlt a b = true)
    (h2 : keyBlt b d = true) : keyBlt a d = true := by
  simp only [keyBlt, decide_eq_true_eq] at h1 h2 ⊢
  rcases h1 with h1 | ⟨h1a, h1b⟩ <;> rcases h2 with h2 | ⟨h2a, h2b⟩
  · exact Or.inl (h1.trans h2)
  · exact Or.inl (h2a ▸ h1)
  · exact Or.inl (by rw [h1a]; exact h2)
  · exact Or.inr ⟨h1a.trans h2a, h1b.trans h2b⟩

theorem keyBlt_total {a b : SignedBlock} (h1 : keyBlt a b = false)
    (h2 : keyBeq a b = false) : keyBlt b a = true := by
  have h1' : ¬ (a.height < b.height ∨ (a.height = b.height ∧ a.hash < b.hash)) := by
    simpa [keyBlt] using h1
  have h2' : ¬ (a.height = b.height ∧ a.hash = b.hash) := by
    simpa [keyBeq] using h2
  simp only [keyBlt, decide_eq_true_eq]
  by_cases hh : a.height = b.height
  · refine Or.inr ⟨hh.symm, ?_⟩
    have hlt : ¬ a.hash < b.hash := fun hlt => h1' (Or.inr ⟨hh, hlt⟩)
    have hne : a.hash ≠ b.hash := fun he => h2' ⟨hh, he⟩
    omega
  · refine Or.inl ?_
    have hlt : ¬ a.height < b.height := fun hlt => h1' (Or.inl hlt)
    omega

theorem keyBlt_chain_lt {c : Nat → SignedBlock} {n : Nat} (hc : IsChain c n)
    {i j : Nat} (hi : i < n) (hj : j < n) (h : keyBlt (c i) (c j) = true) : i < j := by
  simp only [keyBlt, decide_eq_true_eq] at h
  rw [hc.height_eq i hi, hc.height_eq j hj] at h
  rcases h with h | ⟨h1, h2⟩
  · exact h
  · subst h1
    exact absurd h2 (lt_irrefl _)

/-- The reorder buffer is a strictly key-sorted list. -/
def BufSorted (l : List SignedBlock) : Prop :=
  List.Pairwise (fun a b => keyBlt a b = true) l

theorem mem_insertBuffer : ∀ (l : List SignedBlock) (b x : SignedBlock),
    x ∈ insertBuffer b l → x = b ∨ x ∈ l := by
  intro l
  induction l with
  | nil =>
    intro b x hx
    simp only [insertBuffer, List.mem_singleton] at hx
    exact Or.inl hx
  | cons y ys ih =>
    intro b x hx
    simp only [insertBuffer] at hx
    split_ifs at hx
    · rcases List.mem_cons.mp hx with h | h
      · exact Or.inl h
      · exact Or.inr h
    · exact Or.inr hx
    · rcases List.mem_cons.mp hx with h | h
      · exact Or.inr (h ▸ List.mem_cons_self _ _)
      · rcases ih b x h with h' | h'
        · exact Or.inl h'
        · exact Or.inr (List.mem_cons_of_mem _ h')

theorem insertBuffer_sorted (b : SignedBlock) :
    ∀ l, BufSorted l → BufSorted (insertBuffer b l) := by
  intro l
  induction l with
  | nil =>
    intro _
    simp [insertBuffer, BufSorted]
  | cons y ys ih =>
    intro hs
    have hy := (List.pairwise_cons.mp hs).1
    have hys := (List.pairwise_cons.mp hs).2
    simp only [insertBuffer]
    split_ifs with h1 h2
    · refine List.pairwise_cons.mpr ⟨?_, hs⟩
      intro z hz
      rcases List.mem_cons.mp hz with rfl | hz'
      · exact h1
      · exact keyBlt_trans h1 (hy z hz')
    · exact hs
    · refine List.pairwise_cons.mpr ⟨?_, ih hys⟩
      intro z hz
      rcases mem_insertBuffer ys b z hz with rfl | hz'
      · exact keyBlt_total (by simpa using h1) (by simpa using h2)
      · exact hy z hz'

theorem handle_signed_block_dup (putOk : SignedBlock → Bool)
    (sendOk : String → SignedBlock → Bool) (now : Nat) (s : DAState) (b : SignedBlock)
    (h : containsHash s.core.stored b.hash = true) :
    handle_signed_block putOk sendOk now s b = (s, noOutput) := by
  unfold handle_signed_block
  simp [h]

theorem handle_signed_block_buffered (putOk : SignedBlock → Bool)
    (sendOk : String → SignedBlock → Bool) (now : Nat) (s : DAState) (b : SignedBlock)
    (hcon : containsHash s.core.stored b.hash = false)
    (hcase : (!s.core.stored.isEmpty && !containsHash s.core.stored b.parent_hash) = true
      ∨ ((!s.core.stored.isEmpty && !containsHash s.core.stored b.parent_hash) = false ∧
         (s.core.stored.isEmpty && !(b.height == 0)) = true)) :
    handle_signed_block putOk sendOk now s b
      = ({ s with buffered_signed_blocks := insertBuffer b s.buffered_signed_blocks },
         noOutput) := by
  unfold handle_signed_block
  rcases hcase with h1 | ⟨h1, h2⟩
  · simp [hcon, h1]
  · simp [hcon, h1, h2]

/-- Draining the reorder buffer from the stored chain prefix of length `m`:
the drain extends the store to some prefix of length `m' ≥ m`, emits exactly
the chain segment `[m, m')` in ascending order, and leaves a sorted buffer
all of whose blocks lie strictly beyond the new prefix. -/
theorem pop_buffer_chain_spec (sendOk : String → SignedBlock → Bool) (now : Nat)
    {c : Nat → SignedBlock} {n : Nat} (hc : IsChain c n) :
    ∀ (buf : List SignedBlock) (m : Nat) (core : Core) (lastHash : Nat),
      1 ≤ m → m ≤ n → core.stored = chainPrefix c m → lastHash = (c (m - 1)).hash →
      BufSorted buf → (∀ b ∈ buf, ∃ i, m ≤ i ∧ i < n ∧ b = c i) →
      ∃ m', m ≤ m' ∧ m' ≤ n ∧
        (pop_buffer allPutsOk sendOk now buf lastHash core).2.1.stored = chainPrefix c m' ∧
        (pop_buffer allPutsOk sendOk now buf lastHash core).2.2.emitted
          = (List.range' m (m' - m)).map c ∧
        BufSorted (pop_buffer allPutsOk sendOk now buf lastHash core).1 ∧
        (∀ b ∈ (pop_buffer allPutsOk sendOk now buf lastHash core).1,
          ∃ i, m' < i ∧ i < n ∧ b = c i) := by
  intro buf
  induction buf with
  | nil =>
    intro m core lastHash hm1 hmn hstored hlast hsort helems
    exact ⟨m, le_refl m, hmn, by simp [pop_buffer, hstored], by simp [pop_buffer, noOutput],
      by simp [pop_buffer, BufSorted], by simp [pop_buffer]⟩
  | cons first rest ih =>
    intro m core lastHash hm1 hmn hstored hlast hsort helems
    obtain ⟨j, hjm, hjn, hfirst⟩ := helems first (List.mem_cons_self _ _)
    subst hfirst
    have hj1 : 1 ≤ j := le_trans hm1 hjm
    have hparent : (c j).parent_hash = (c (j - 1)).hash := by
      have hj1' : j - 1 + 1 = j := by omega
      have hp := hc.parent_link (j - 1) (by omega)
      rwa [hj1'] at hp
    have hrest_sorted : BufSorted rest := (List.pairwise_cons.mp hsort).2
    have hhead := (List.pairwise_cons.mp hsort).1
    by_cases hjm' : j = m
    · subst hjm'
      have hcond : ((c j).parent_hash == lastHash) = true := by
        rw [hparent, hlast]
        exact beq_self_eq_true _
      have hp1 : (add_processed_block allPutsOk sendOk now core (c j)).1.stored
          = chainPrefix c (j + 1) := by
        rw [add_processed_block_stored, hstored]
        simp [allPutsOk, chainPrefix_succ]
      have hrest_elems : ∀ b ∈ rest, ∃ i, j + 1 ≤ i ∧ i < n ∧ b = c i := by
        intro b hb
        obtain ⟨i, him, hin, rfl⟩ := helems b (List.mem_cons_of_mem _ hb)
        exact ⟨i, keyBlt_chain_lt hc hjn hin (hhead _ hb), hin, rfl⟩
      obtain ⟨m', hm'1, hm'n, hst, hem, hsrt, hel⟩ := ih (j + 1)
        (add_processed_block allPutsOk sendOk now core (c j)).1 (c j).hash
        (by omega) hjn hp1 (by simp) hrest_sorted hrest_elems
      have hp2 : (add_processed_block allPutsOk sendOk now core (c j)).2.emitted = [c j] := by
        rw [add_processed_block_allOk]
      refine ⟨m', by omega, hm'n, ?_, ?_, ?_, ?_⟩ <;>
        simp only [pop_buffer, hcond, if_true]
      · exact hst
      · rw [Output.append_emitted, hp2, hem]
        have hsplit : m' - j = (m' - (j + 1)) + 1 := by omega
        rw [hsplit, List.range'_succ, List.map_cons]
        rfl
      · exact hsrt
      · exact hel
    · have hne : (c (j - 1)).hash ≠ (c (m - 1)).hash := by
        intro heq
        have := hc.hash_inj (j - 1) (m - 1) (by omega) (by omega) heq
        omega
      have hcond : ((c j).parent_hash == lastHash) = false := by
        rw [hparent, hlast]
        exact beq_eq_false_iff_ne.mpr hne
      refine ⟨m, le_refl m, hmn, ?_, ?_, ?_, ?_⟩ <;>
        simp only [pop_buffer, hcond, Bool.false_eq_true, if_false]
      · exact hstored
      · simp [noOutput]
      · exact hsort
      · intro b hb
        rcases List.mem_cons.mp hb with rfl | hb'
        · exact ⟨j, by omega, hjn, rfl⟩
        · obtain ⟨i, him, hin, rfl⟩ := helems b (List.mem_cons_of_mem _ hb')
          have hji : j < i := keyBlt_chain_lt hc hjn hin (hhead _ hb')
          exact ⟨i, by omega, hin, rfl⟩

/-- The state invariant of the acceptance pipeline along a chain: the store
holds exactly the chain prefix of length `k`, and the reorder buffer is
sorted and holds only chain blocks strictly beyond the prefix. -/
def ChainInv (c : Nat → SignedBlock) (n k : Nat) (s : DAState) : Prop :=
  s.core.stored = chainPrefix c k ∧
  BufSorted s.buffered_signed_blocks ∧
  ∀ b ∈ s.buffered_signed_blocks, ∃ i, k < i ∧ i < n ∧ b = c i

theorem handle_chain_spec (sendOk : String → SignedBlock → Bool) (now : Nat)
    {c : Nat → SignedBlock} {n : Nat} (hc : IsChain c n) (k : Nat) (s : DAState)
    (i : Nat) (hk : k ≤ n) (hi : i < n) (hinv : ChainInv c n k s) :
    ∃ k', k ≤ k' ∧ k' ≤ n ∧
      ChainInv c n k' (handle_signed_block allPutsOk sendOk now s (c i)).1 ∧
      (handle_signed_block allPutsOk sendOk now s (c i)).2.emitted
        = (List.range' k (k' - k)).map c := by
  obtain ⟨hstored, hsort, helems⟩ := hinv
  by_cases hik : i < k
  · have hdup : containsHash s.core.stored (c i).hash = true := by
      rw [hstored]
      exact (containsHash_chainPrefix_iff hc hk hi).mpr hik
    rw [handle_signed_block_dup allPutsOk sendOk now s (c i) hdup]
    exact ⟨k, le_refl k, hk, ⟨hstored, hsort, helems⟩, by simp [noOutput]⟩
  · have hcon : containsHash s.core.stored (c i).hash = false := by
      rw [hstored]
      rw [Bool.eq_false_iff]
      intro hx
      exact hik ((containsHash_chainPrefix_iff hc hk hi).mp hx)
    rcases Nat.eq_zero_or_pos k with hk0 | hkpos
    · subst hk0
      have hEmpty : s.core.stored.isEmpty = true := by
        rw [hstored, chainPrefix_isEmpty]
        simp
      rcases Nat.eq_zero_or_pos i with hi0 | hipos
      · subst hi0
        have hheight : (c 0).height = 0 := hc.height_eq 0 hi
        have hcommit := handle_signed_block_commit allPutsOk sendOk now s (c 0) hcon
          (by simp [hEmpty]) (by simp [hheight])
        have hp1 : (add_processed_block allPutsOk sendOk now s.core (c 0)).1.stored
            = chainPrefix c 1 := by
          rw [add_processed_block_stored, hstored]
          simp [allPutsOk, chainPrefix_succ]
        obtain ⟨m', hm'1, hm'n, hst, hem, hsrt, hel⟩ := pop_buffer_chain_spec sendOk now hc
          s.buffered_signed_blocks 1 (add_processed_block allPutsOk sendOk now s.core (c 0)).1
          (c 0).hash (le_refl 1) (by omega) hp1 (by simp)
          hsort (fun b hb => by
            obtain ⟨x, hx, hxn, rfl⟩ := helems b hb
            exact ⟨x, by omega, hxn, rfl⟩)
        have hp2 : (add_processed_block allPutsOk sendOk now s.core (c 0)).2.emitted
            = [c 0] := by rw [add_processed_block_allOk]
        refine ⟨m', by omega, hm'n, ⟨?_, ?_, ?_⟩, ?_⟩ <;> rw [hcommit]
        · exact hst
        · exact hsrt
        · exact hel
        · rw [Output.append_emitted, hp2, hem]
          have hsplit : m' - 0 = (m' - 1) + 1 := by omega
          rw [hsplit, List.range'_succ, List.map_cons]
          rfl
      · have hheight : ((c i).height == 0) = false := by
          rw [hc.height_eq i hi]
          simp
          omega
        have hbuf := handle_signed_block_buffered allPutsOk sendOk now s (c i) hcon
          (Or.inr ⟨by simp [hEmpty], by simp [hEmpty, hheight]⟩)
        rw [hbuf]
        refine ⟨0, le_refl 0, by omega, ⟨hstored, insertBuffer_sorted _ _ hsort, ?_⟩,
          by simp [noOutput]⟩
        intro b hb
        rcases mem_insertBuffer _ _ _ hb with rfl | hb'
        · exact ⟨i, hipos, hi, rfl⟩
        · exact helems b hb'
    · have hneE : s.core.stored.isEmpty = false := by
        rw [hstored, chainPrefix_isEmpty]
        simp
        omega
      have hki : k ≤ i := le_of_not_lt hik
      have hi1 : 1 ≤ i := le_trans hkpos hki
      have hparent : (c i).parent_hash = (c (i - 1)).hash := by
        have hj1' : i - 1 + 1 = i := by omega
        have hp := hc.parent_link (i - 1) (by omega)
        rwa [hj1'] at hp
      by_cases hik' : i = k
      · subst hik'
        have hpar : containsHash s.core.stored (c i).parent_hash = true := by
          rw [hstored, hparent]
          exact (containsHash_chainPrefix_iff hc hk (by omega)).mpr (by omega)
        have hcommit := handle_signed_block_commit allPutsOk sendOk now s (c i) hcon
          (by simp [hpar]) (by simp [hneE])
        have hp1 : (add_processed_block allPutsOk sendOk now s.core (c i)).1.stored
            = chainPrefix c (i + 1) := by
          rw [add_processed_block_stored, hstored]
          simp [allPutsOk, chainPrefix_succ]
        obtain ⟨m', hm'1, hm'n, hst, hem, hsrt, hel⟩ := pop_buffer_chain_spec sendOk now hc
          s.buffered_signed_blocks (i + 1)
          (add_processed_block allPutsOk sendOk now s.core (c i)).1
          (c i).hash (by omega) hi hp1 (by simp)
          hsort (fun b hb => by
            obtain ⟨x, hx, hxn, rfl⟩ := helems b hb
            exact ⟨x, by omega, hxn, rfl⟩)
        have hp2 : (add_processed_block allPutsOk sendOk now s.core (c i)).2.emitted
            = [c i] := by rw [add_processed_block_allOk]
        refine ⟨m', by omega, hm'n, ⟨?_, ?_, ?_⟩, ?_⟩ <;> rw [hcommit]
        · exact hst
        · exact hsrt
        · exact hel
        · rw [Output.append_emitted, hp2, hem]
          have hsplit : m' - i = (m' - (i + 1)) + 1 := by omega
          rw [hsplit, List.range'_succ, List.map_cons]
          rfl
      · have hpar : containsHash s.core.stored (c i).parent_hash = false := by
          rw [hstored, hparent]
          rw [Bool.eq_false_iff]
          intro hx
          have := (containsHash_chainPrefix_iff hc hk (by omega)).mp hx
          omega
        have hbuf := handle_signed_block_buffered allPutsOk sendOk now s (c i) hcon
          (Or.inl (by simp [hneE, hpar]))
        rw [hbuf]
        refine ⟨k, le_refl k, hk, ⟨hstored, insertBuffer_sorted _ _ hsort, ?_⟩,
          by simp [noOutput]⟩
        intro b hb
        rcases mem_insertBuffer _ _ _ hb with rfl | hb'
        · exact ⟨i, by omega, hi, rfl⟩
        · exact helems b hb'

/-- Running any sequence of chain blocks through the pipeline keeps the
invariant and emits exactly a chain segment. -/
theorem run_chain_spec (sendOk : String → SignedBlock → Bool) (now : Nat)
    {c : Nat → SignedBlock} {n : Nat} (hc : IsChain c n) :
    ∀ (inputs : List SignedBlock) (k : Nat) (s : DAState),
      k ≤ n → ChainInv c n k s → (∀ b ∈ inputs, ∃ i, i < n ∧ b = c i) →
      ∃ k', k ≤ k' ∧ k' ≤ n ∧
        ChainInv c n k' (run allPutsOk sendOk now s inputs).1 ∧
        (run allPutsOk sendOk now s inputs).2.emitted
          = (List.range' k (k' - k)).map c := by
  intro inputs
  induction inputs with
  | nil =>
    intro k s hk hinv _
    exact ⟨k, le_refl k, hk, hinv, by simp [run, noOutput]⟩
  | cons b bs ih =>
    intro k s hk hinv hin
    obtain ⟨i, hi, rfl⟩ := hin b (List.mem_cons_self _ _)
    obtain ⟨k1, hk1, hk1n, hinv1, hem1⟩ := handle_chain_spec sendOk now hc k s i hk hi hinv
    obtain ⟨k2, hk2, hk2n, hinv2, hem2⟩ := ih k1
      (handle_signed_block allPutsOk sendOk now s (c i)).1 hk1n hinv1
      (fun x hx => hin x (List.mem_cons_of_mem _ hx))
    refine ⟨k2, le_trans hk1 hk2, hk2n, hinv2, ?_⟩
    show ((handle_signed_block allPutsOk sendOk now s (c i)).2 ++
      (run allPutsOk sendOk now (handle_signed_block allPutsOk sendOk now s (c i)).1 bs).2).emitted
        = (List.range' k (k2 - k)).map c
    rw [Output.append_emitted, hem1, hem2, ← List.map_append]
    have harr : k + (k1 - k) = k1 := by omega
    have h2 : List.range' k1 (k2 - k1) = List.range' (k + (k1 - k)) (k2 - k1) := by rw [harr]
    rw [h2, List.range'_append_1]
    refine congrArg (List.map c) ?_
    rw [List.range'_inj]
    exact ⟨by omega, Or.inr rfl⟩

theorem pairwise_height_map_range' {c : Nat → SignedBlock} {n : Nat} (hc : IsChain c n) :
    ∀ (t m : Nat), m + t ≤ n →
      List.Pairwise (fun a b => a.height < b.height) ((List.range' m t).map c) := by
  intro t
  induction t with
  | zero => intro m _; simp
  | succ t ih =>
    intro m hmt
    rw [List.range'_succ, List.map_cons]
    refine List.pairwise_cons.mpr ⟨?_, ih (m + 1) (by omega)⟩
    intro y hy
    obtain ⟨j, hj, rfl⟩ := List.mem_map.mp hy
    have hj' := List.mem_range'_1.mp hj
    rw [hc.height_eq m (by omega), hc.height_eq j (by omega)]
    omega

theorem chain_parent_map_range' {c : Nat → SignedBlock} {n : Nat} (hc : IsChain c n) :
    ∀ (t m : Nat), m + t ≤ n →
      List.Chain' (fun a b => b.parent_hash = a.hash) ((List.range' m t).map c) := by
  intro t
  induction t with
  | zero => intro m _; simp
  | succ t ih =>
    intro m hmt
    rw [List.range'_succ, List.map_cons]
    refine List.chain'_cons'.mpr ⟨?_, ih (m + 1) (by omega)⟩
    intro y hy
    cases t with
    | zero => simp at hy
    | succ t' =>
      rw [List.range'_succ, List.map_cons] at hy
      simp only [List.head?_cons, Option.mem_def, Option.some.injEq] at hy
      subst hy
      exact hc.parent_link m (by omega)

/-- C1.  For every sequence of blocks drawn from a parent-linked chain
(duplicates and permutations allowed) delivered to `handle_signed_block`
starting from the empty state, the sequence of `OrderedSignedBlock` emissions
is strictly increasing by height, each emitted block's parent hash equals the
hash of the previously emitted block, and the first emitted block (when any)
has height 0. -/
theorem claim_C1_ordered_emission (sendOk : String → SignedBlock → Bool) (now : Nat)
    (c : Nat → SignedBlock) (n : Nat) (hc : IsChain c n)
    (inputs : List SignedBlock) (hin : ∀ b ∈ inputs, ∃ i, i < n ∧ b = c i) :
    List.Pairwise (fun a b => a.height < b.height)
      (run allPutsOk sendOk now initState inputs).2.emitted ∧
    List.Chain' (fun a b => b.parent_hash = a.hash)
      (run allPutsOk sendOk now initState inputs).2.emitted ∧
    (∀ b0, (run allPutsOk sendOk now initState inputs).2.emitted.head? = some b0 →
      b0.height = 0) := by
  have hinv0 : ChainInv c n 0 initState := by
    refine ⟨rfl, ?_, ?_⟩ <;> simp [initState, BufSorted]
  obtain ⟨k', _, hk'n, _, hem⟩ := run_chain_spec sendOk now hc inputs 0 initState
    (Nat.zero_le n) hinv0 hin
  rw [hem]
  have hk0 : k' - 0 = k' := by omega
  rw [hk0]
  refine ⟨pairwise_height_map_range' hc k' 0 (by omega),
    chain_parent_map_range' hc k' 0 (by omega), ?_⟩
  intro b0 hb0
  cases k' with
  | zero => simp at hb0
  | succ t =>
    rw [List.range'_succ, List.map_cons, List.head?_cons] at hb0
    injection hb0 with hb0
    rw [← hb0]
    exact hc.height_eq 0 (by omega)

/-- A concrete parent-linked chain: block `i` has height `i`, hash `i + 1`
and parent hash `i` (so block `i + 1` points at block `i`). -/
def simpleChain (i : Nat) : SignedBlock := ⟨i, i, i + 1⟩

theorem simpleChain_isChain (n : Nat) : IsChain simpleChain n :=
  ⟨fun _ _ => rfl, fun _ _ => rfl,
   fun i j _ _ h => by simpa [simpleChain] using h⟩

/-- Witness for C1: deliver `c 1` then `c 0` out of order; the emission trace
is strictly increasing by height. -/
theorem claim_C1_ordered_emission_witness :
    (∀ b ∈ [simpleChain 1, simpleChain 0], ∃ i, i < 2 ∧ b = simpleChain i) ∧
    List.Pairwise (fun a b => a.height < b.height)
      (run allPutsOk allSendsOk 0 initState [simpleChain 1, simpleChain 0]).2.emitted :=
  ⟨by decide,
   (claim_C1_ordered_emission allSendsOk 0 simpleChain 2 (simpleChain_isChain 2)
     [simpleChain 1, simpleChain 0] (by decide)).1⟩

/-! ### C3: the deep-buffer drain scenario -/

@[simp] theorem noOutput_append (a : Output) : noOutput ++ a = a := by
  show Output.append noOutput a = a
  cases a
  simp [Output.append, noOutput]

@[simp] theorem append_noOutput (a : Output) : a ++ noOutput = a := by
  show Output.append a noOutput = a
  cases a
  simp [Output.append, noOutput]

theorem Output.append_assoc (a b d : Output) : a ++ b ++ d = a ++ (b ++ d) := by
  show Output.append (Output.append a b) d = Output.append a (Output.append b d)
  cases a
  cases b
  cases d
  simp [Output.append]

theorem run_append (putOk : SignedBlock → Bool) (sendOk : String → SignedBlock → Bool)
    (now : Nat) : ∀ (xs ys : List SignedBlock) (s : DAState),
    run putOk sendOk now s (xs ++ ys)
      = ((run putOk sendOk now (run putOk sendOk now s xs).1 ys).1,
         (run putOk sendOk now s xs).2
           ++ (run putOk sendOk now (run putOk sendOk now s xs).1 ys).2) := by
  intro xs
  induction xs with
  | nil => intro ys s; simp [run]
  | cons x xs ih =>
    intro ys s
    have hcons : (x :: xs) ++ ys = x :: (xs ++ ys) := rfl
    rw [hcons]
    simp only [run]
    rw [ih ys (handle_signed_block putOk sendOk now s x).1]
    rw [Output.append_assoc]

/-- Delivering the blocks `c k, c (k-1), …, c 1` of the simple chain (in
descending order) to an empty store only accumulates them in the reorder
buffer, with no emission. -/
theorem run_desc_buffered (sendOk : String → SignedBlock → Bool) (now : Nat) :
    ∀ (k t : Nat) (s : DAState),
      s.core.stored = [] →
      s.buffered_signed_blocks = (List.range' (k + 1) t).map simpleChain →
      run allPutsOk sendOk now s (((List.range' 1 k).map simpleChain).reverse)
        = ({ s with buffered_signed_blocks := (List.range' 1 (k + t)).map simpleChain },
           noOutput) := by
  intro k
  induction k with
  | zero =>
    intro t s hst hbuf
    simp only [List.range'_zero, List.map_nil, List.reverse_nil, run, Nat.zero_add]
    rw [← hbuf]
  | succ k ih =>
    intro t s hst hbuf
    have hcon : containsHash s.core.stored (simpleChain (k + 1)).hash = false := by
      simp [hst, containsHash]
    have hisE : s.core.stored.isEmpty = true := by simp [hst]
    have hstep := handle_signed_block_buffered allPutsOk sendOk now s (simpleChain (k + 1))
      hcon (Or.inr ⟨by simp [hisE], by simp [hisE, simpleChain]⟩)
    have hins : insertBuffer (simpleChain (k + 1)) s.buffered_signed_blocks
        = (List.range' (k + 1) (t + 1)).map simpleChain := by
      rw [hbuf]
      cases t with
      | zero => simp [insertBuffer]
      | succ t' =>
        rw [List.range'_succ (k + 1 + 1), List.map_cons]
        have hlt : keyBlt (simpleChain (k + 1)) (simpleChain (k + 1 + 1)) = true := by
          simp only [keyBlt, simpleChain, decide_eq_true_eq]
          left
          omega
        rw [List.range'_succ (k + 1), List.range'_succ (k + 1 + 1), List.map_cons,
          List.map_cons]
        simp [insertBuffer, hlt]
    have hsplit : List.range' 1 (k + 1) = List.range' 1 k ++ [1 + k] :=
      List.range'_1_concat 1 k
    rw [hsplit, List.map_append, List.reverse_append]
    simp only [List.map_cons, List.map_nil, List.reverse_cons, List.reverse_nil,
      List.nil_append, List.singleton_append]
    simp only [run]
    have h1k : 1 + k = k + 1 := Nat.add_comm 1 k
    rw [h1k, hstep]
    rw [ih (t + 1) _ (by simpa using hst) (by simpa using hins)]
    have harith : k + (t + 1) = k + 1 + t := by omega
    simp [harith]

/-- Draining a reorder buffer holding exactly the contiguous simple-chain
segment `[m, m + t)` commits and emits all of it. -/
theorem pop_buffer_simple_full (sendOk : String → SignedBlock → Bool) (now : Nat) :
    ∀ (t m : Nat) (core : Core) (lastHash : Nat), 1 ≤ m →
      core.stored = (List.range m).map simpleChain →
      lastHash = (simpleChain (m - 1)).hash →
      (pop_buffer allPutsOk sendOk now ((List.range' m t).map simpleChain)
          lastHash core).1 = [] ∧
      (pop_buffer allPutsOk sendOk now ((List.range' m t).map simpleChain)
          lastHash core).2.1.stored
        = (List.range (m + t)).map simpleChain ∧
      (pop_buffer allPutsOk sendOk now ((List.range' m t).map simpleChain)
          lastHash core).2.2.emitted
        = (List.range' m t).map simpleChain := by
  intro t
  induction t with
  | zero =>
    intro m core lastHash hm hst hlast
    simp [pop_buffer, hst, noOutput]
  | succ t ih =>
    intro m core lastHash hm hst hlast
    have hcond : ((simpleChain m).parent_hash == lastHash) = true := by
      rw [hlast]
      simp only [simpleChain, beq_iff_eq]
      omega
    have hp1 : (add_processed_block allPutsOk sendOk now core (simpleChain m)).1.stored
        = (List.range (m + 1)).map simpleChain := by
      rw [add_processed_block_stored, hst]
      simp [allPutsOk, List.range_succ]
    have hp2 : (add_processed_block allPutsOk sendOk now core (simpleChain m)).2.emitted
        = [simpleChain m] := by rw [add_processed_block_allOk]
    have ihr := ih (m + 1) (add_processed_block allPutsOk sendOk now core (simpleChain m)).1
      (simpleChain m).hash (by omega) hp1 rfl
    rw [List.range'_succ, List.map_cons]
    refine ⟨?_, ?_, ?_⟩ <;> simp only [pop_buffer, hcond, if_true]
    · exact ihr.1
    · rw [ihr.2.1]
      have harith : m + 1 + t = m + (t + 1) := by omega
      rw [harith]
    · rw [Output.append_emitted, hp2, ihr.2.2]
      rfl

/-- The deep-buffer scenario: deliver the blocks `N, N-1, …, 1` of the simple
chain (all orphans, in reverse height order), then the genesis block; the
pipeline commits and emits the whole chain `0, 1, …, N` in ascending order. -/
theorem deep_buffer_scenario (sendOk : String → SignedBlock → Bool) (now : Nat) (N : Nat) :
    (run allPutsOk sendOk now initState
        (((List.range' 1 N).map simpleChain).reverse ++ [simpleChain 0])).2.emitted
      = (List.range (N + 1)).map simpleChain := by
  rw [run_append]
  have hphase1 := run_desc_buffered sendOk now N 0 initState rfl rfl
  simp only [Nat.add_zero] at hphase1
  rw [hphase1]
  simp only [noOutput_append, run, append_noOutput]
  rw [handle_signed_block_commit allPutsOk sendOk now
    ({ initState with
        buffered_signed_blocks := (List.range' 1 N).map simpleChain } : DAState)
    (simpleChain 0) rfl rfl rfl]
  have hp1 : (add_processed_block allPutsOk sendOk now
      ({ initState with
          buffered_signed_blocks := (List.range' 1 N).map simpleChain } : DAState).core
      (simpleChain 0)).1.stored = (List.range 1).map simpleChain := by
    rw [add_processed_block_stored]
    simp [allPutsOk, initState, List.range_succ]
  have hp2 : (add_processed_block allPutsOk sendOk now
      ({ initState with
          buffered_signed_blocks := (List.range' 1 N).map simpleChain } : DAState).core
      (simpleChain 0)).2.emitted = [simpleChain 0] := by
    rw [add_processed_block_allOk]
  have hdrain := pop_buffer_simple_full sendOk now N 1
    (add_processed_block allPutsOk sendOk now
      ({ initState with
          buffered_signed_blocks := (List.range' 1 N).map simpleChain } : DAState).core
      (simpleChain 0)).1
    (simpleChain 0).hash (le_refl 1) hp1 rfl
  have hb : ({ initState with
      buffered_signed_blocks := (List.range' 1 N).map simpleChain } : DAState).buffered_signed_blocks
      = (List.range' 1 N).map simpleChain := rfl
  rw [Output.append_emitted, hp2, hb, hdrain.2.2]
  rw [List.range_eq_range', List.range'_succ]
  simp

/-- Counterexample for C3 as stated: inserting the 10,000 orphan blocks
`c 10000, …, c 1` in reverse order and then the genesis `c 0` emits 10,001
blocks (the genesis is also emitted), not exactly 10,000. -/
theorem claim_C3_counterexample :
    (run allPutsOk allSendsOk 0 initState
        (((List.range' 1 10000).map simpleChain).reverse ++ [simpleChain 0])).2.emitted.length
      ≠ 10000 := by
  rw [deep_buffer_scenario allSendsOk 0 10000]
  simp

/-- C3 (amended).  The reorder-buffer drain `pop_buffer` starting from last
hash `H` repeatedly removes the least `(height, hash)` buffered block,
commits it iff its parent hash equals the current last hash, and stops at the
first mismatch; in particular, inserting 10,000 orphan blocks in reverse
order and then the genesis block commits and emits exactly 10,001 blocks
(the genesis plus the 10,000 orphans) in ascending height order, through the
buffer-length-decreasing iteration of `pop_buffer` (no recursion through
`handle_signed_block`). -/
theorem claim_C3_amended_deep_buffer :
    (run allPutsOk allSendsOk 0 initState
        (((List.range' 1 10000).map simpleChain).reverse ++ [simpleChain 0])).2.emitted
      = (List.range 10001).map simpleChain ∧
    (run allPutsOk allSendsOk 0 initState
        (((List.range' 1 10000).map simpleChain).reverse ++ [simpleChain 0])).2.emitted.length
      = 10001 ∧
    List.Pairwise (fun a b => a.height < b.height)
      (run allPutsOk allSendsOk 0 initState
        (((List.range' 1 10000).map simpleChain).reverse ++ [simpleChain 0])).2.emitted := by
  have hsc := deep_buffer_scenario allSendsOk 0 10000
  refine ⟨hsc, by rw [hsc]; simp, ?_⟩
  rw [hsc, List.range_eq_range']
  exact pairwise_height_map_range' (simpleChain_isChain 10001) 10001 0 (by omega)

/-! ### C2: per-peer delivery through the event loop -/

theorem foldl_maxHeight {c : Nat → SignedBlock} {n : Nat} (hc : IsChain c n) :
    ∀ (t m : Nat) (a : SignedBlock), m + t ≤ n → a.height < m →
      ((List.range' m t).map c).foldl
          (fun acc x => if acc.height < x.height then x else acc) a
        = if t = 0 then a else c (m + t - 1) := by
  intro t
  induction t with
  | zero => intro m a _ _; simp
  | succ t ih =>
    intro m a hmt ham
    rw [List.range'_succ, List.map_cons, List.foldl_cons]
    have hstep : (if a.height < (c m).height then c m else a) = c m := by
      rw [hc.height_eq m (by omega), if_pos ham]
    rw [hstep, ih (m + 1) (c m) (by omega) (by rw [hc.height_eq m (by omega)]; omega)]
    cases t with
    | zero => simp
    | succ t' =>
      have h1 : m + 1 + (t' + 1) - 1 = m + (t' + 1 + 1) - 1 := by omega
      simp [h1]

theorem chainPrefix_cons {c : Nat → SignedBlock} (H : Nat) :
    chainPrefix c (H + 1) = c 0 :: (List.range' 1 H).map c := by
  rw [chainPrefix, List.range_eq_range']
  rw [List.range'_succ, List.map_cons]

theorem blocksLast_chainPrefix {c : Nat → SignedBlock} {n : Nat} (hc : IsChain c n)
    (H : Nat) (h1 : H + 1 ≤ n) :
    blocksLast (chainPrefix c (H + 1)) = some (c H) := by
  rw [chainPrefix_cons, blocksLast]
  rw [foldl_maxHeight hc H 1 (c 0) (by omega) (by rw [hc.height_eq 0 (by omega)]; omega)]
  cases H with
  | zero => simp
  | succ H' => simp

theorem sortByHeight_sorted :
    ∀ l : List SignedBlock, List.Pairwise (fun a b => a.height < b.height) l →
      sortByHeight l = l := by
  intro l
  induction l with
  | nil => intro _; rfl
  | cons x xs ih =>
    intro hs
    have hx := (List.pairwise_cons.mp hs).1
    rw [sortByHeight, ih (List.pairwise_cons.mp hs).2]
    cases xs with
    | nil => rfl
    | cons y ys =>
      rw [insertByHeight, if_pos (hx y (List.mem_cons_self _ _))]

theorem range_filter_le (a : Nat) :
    ∀ N : Nat, (List.range N).filter (fun i => decide (a ≤ i)) = List.range' a (N - a) := by
  intro N
  induction N with
  | zero => simp
  | succ N ih =>
    rw [List.range_succ, List.filter_append, ih]
    by_cases haN : a ≤ N
    · have h1 : N + 1 - a = (N - a) + 1 := by omega
      have h2 : a + (N - a) = N := by omega
      rw [h1, List.range'_1_concat, h2]
      simp [haN]
    · have h1 : N - a = 0 := by omega
      have h2 : N + 1 - a = 0 := by omega
      rw [h1, h2]
      simp
      omega

theorem blocksRange_chainPrefix {c : Nat → SignedBlock} {n : Nat} (hc : IsChain c n)
    {H : Nat} (h1 : H + 1 ≤ n) (a : Nat) :
    blocksRange (chainPrefix c (H + 1)) a (H + 1) = (List.range' a (H + 1 - a)).map c := by
  rw [blocksRange, chainPrefix, List.filter_map]
  have hcongr : (List.range (H + 1)).filter
        ((fun blk => decide (a ≤ blk.height) && decide (blk.height < H + 1)) ∘ c)
      = (List.range (H + 1)).filter (fun i => decide (a ≤ i)) := by
    refine List.filter_congr ?_
    intro i hi
    have hiH : i < H + 1 := List.mem_range.mp hi
    simp [Function.comp, hc.height_eq i (by omega), hiH]
  rw [hcongr, range_filter_le]
  refine sortByHeight_sorted _ ?_
  by_cases haH : a ≤ H + 1
  · exact pairwise_height_map_range' hc (H + 1 - a) a (by omega)
  · have h0 : H + 1 - a = 0 := by omega
    rw [h0]
    simp

theorem blocksGet_chain {c : Nat → SignedBlock} {n : Nat} (hc : IsChain c n) :
    ∀ (t a i : Nat), a ≤ i → i < a + t → a + t ≤ n →
      blocksGet ((List.range' a t).map c) (c i).hash = some (c i) := by
  intro t
  induction t with
  | zero => intro a i _ _ _; omega
  | succ t ih =>
    intro a i hai hiat hatn
    rw [List.range'_succ, List.map_cons, blocksGet, List.find?_cons]
    by_cases hia : i = a
    · subst hia
      simp
    · have hne : ((c a).hash == (c i).hash) = false := by
        rw [beq_eq_false_iff_ne]
        intro heq
        exact hia (hc.hash_inj i a (by omega) (by omega) heq.symm)
      rw [hne]
      exact ih (a + 1) i (by omega) (by omega) (by omega)

theorem blocksGet_chainPrefix {c : Nat → SignedBlock} {n : Nat} (hc : IsChain c n)
    {k i : Nat} (hi : i < k) (hk : k ≤ n) :
    blocksGet (chainPrefix c k) (c i).hash = some (c i) := by
  rw [chainPrefix, List.range_eq_range']
  exact blocksGet_chain hc k 0 i (by omega) (by omega) (by omega)

/-- Which events are block commits. -/
def isCommit : LoopEv → Bool
  | LoopEv.commit _ => true
  | LoopEv.catchup => false

def countCommits (evs : List LoopEv) : Nat := (evs.filter isCommit).length

def countCatchup (evs : List LoopEv) : Nat := (evs.filter (fun e => !isCommit e)).length

/-- The blocks committed by an event sequence, in commit order. -/
def commitBlocks : List LoopEv → List SignedBlock
  | [] => []
  | LoopEv.commit b :: evs => b :: commitBlocks evs
  | LoopEv.catchup :: evs => commitBlocks evs

/-- The event sequence commits exactly the chain blocks `c m, c (m+1), …`
in order (the successor of the current last block each time). -/
def ValidFrom (c : Nat → SignedBlock) : Nat → List LoopEv → Bool
  | _, [] => true
  | m, LoopEv.catchup :: evs => ValidFrom c m evs
  | m, LoopEv.commit b :: evs => (b == c m) && ValidFrom c (m + 1) evs

theorem commitBlocks_of_validFrom (c : Nat → SignedBlock) :
    ∀ (evs : List LoopEv) (m : Nat), ValidFrom c m evs = true →
      commitBlocks evs = (List.range' m (countCommits evs)).map c := by
  intro evs
  induction evs with
  | nil => intro m _; simp [commitBlocks, countCommits]
  | cons e evs ih =>
    intro m hv
    cases e with
    | catchup =>
      rw [ValidFrom] at hv
      simpa [commitBlocks, countCommits, isCommit] using ih m hv
    | commit b =>
      rw [ValidFrom, Bool.and_eq_true, beq_iff_eq] at hv
      rw [commitBlocks, ih (m + 1) hv.2]
      have hcount : countCommits (LoopEv.commit b :: evs) = countCommits evs + 1 := by
        simp [countCommits, isCommit]
      rw [hcount, List.range'_succ, List.map_cons, hv.1]

theorem fanoutScan_single_fresh (b : SignedBlock) (ip : String) (now : Nat) :
    fanoutScan allSendsOk now b [(ip, now)] = ([], [(ip, b)]) := by
  simp only [fanoutScan, allSendsOk]
  rw [if_neg (by omega : ¬ now + 60 * 5 < now)]
  simp

theorem add_processed_fresh_peer (now : Nat) (core : Core) (ip : String) (b : SignedBlock)
    (hpeers : core.stream_peer_metadata = [(ip, now)]) :
    add_processed_block allPutsOk allSendsOk now core b
      = (⟨core.stored ++ [b], [(ip, now)]⟩, ⟨[b], [(ip, b)], []⟩) := by
  rw [add_processed_block_allOk, hpeers, fanoutScan_single_fresh]
  simp

/-- The per-peer event-loop invariant: at any interleaving point, the blocks
delivered to the enrolled peer split into a prefix of the snapshot (ascending
heights from `h`) and the live commits (ascending heights from `H + 1`), with
no duplicate. -/
theorem runLoop_inv {c : Nat → SignedBlock} {n : Nat} (hc : IsChain c n)
    (ip : String) (now : Nat) (H h : Nat) (hh : h ≤ H + 1) :
    ∀ (evs : List LoopEv) (j k : Nat) (s : LoopState),
      H + 1 + j + countCommits evs ≤ n →
      k ≤ H + 1 - h →
      s.core.stored = chainPrefix c (H + 1 + j) →
      s.core.stream_peer_metadata = [(ip, now)] →
      (s.queue = some ((((List.range' (h + k) (H + 1 - h - k)).map c).map
            (fun b => b.hash)).reverse)
        ∨ (k = H + 1 - h ∧ s.queue = none)) →
      s.sent.filter (fun b => decide (b.height ≤ H)) = (List.range' h k).map c →
      s.sent.filter (fun b => decide (H < b.height)) = (List.range' (H + 1) j).map c →
      s.sent.Nodup →
      ValidFrom c (H + 1 + j) evs = true →
      (runLoop now ip s evs).sent.filter (fun b => decide (b.height ≤ H))
          = (List.range' h (min (k + countCatchup evs) (H + 1 - h))).map c ∧
      (runLoop now ip s evs).sent.filter (fun b => decide (H < b.height))
          = (List.range' (H + 1) (j + countCommits evs)).map c ∧
      (runLoop now ip s evs).sent.Nodup := by
  intro evs
  induction evs with
  | nil =>
    intro j k s hn hk hst hpeers hq hf1 hf2 hnd _
    have hmin : min (k + countCatchup ([] : List LoopEv)) (H + 1 - h) = k := by
      simp only [countCatchup, List.filter_nil, List.length_nil, Nat.add_zero]
      omega
    have hcc : countCommits ([] : List LoopEv) = 0 := rfl
    rw [runLoop, hmin, hcc, Nat.add_zero]
    exact ⟨hf1, hf2, hnd⟩
  | cons e evs ih =>
    cases e with
    | commit b =>
      intro j k s hn hk hst hpeers hq hf1 hf2 hnd hv
      rw [ValidFrom, Bool.and_eq_true, beq_iff_eq] at hv
      obtain ⟨rfl, hv⟩ := hv
      have hcnt : countCommits (LoopEv.commit (c (H + 1 + j)) :: evs)
          = countCommits evs + 1 := by simp [countCommits, isCommit]
      have hcat : countCatchup (LoopEv.commit (c (H + 1 + j)) :: evs)
          = countCatchup evs := by simp [countCatchup, isCommit]
      have hjn : H + 1 + j < n := by rw [hcnt] at hn; omega
      have hht : (c (H + 1 + j)).height = H + 1 + j := hc.height_eq _ hjn
      have hstep : loopStep now ip s (LoopEv.commit (c (H + 1 + j)))
          = { core := ⟨s.core.stored ++ [c (H + 1 + j)], [(ip, now)]⟩,
              queue := s.queue, sent := s.sent ++ [c (H + 1 + j)] } := by
        simp only [loopStep]
        rw [add_processed_fresh_peer now s.core ip _ hpeers]
        simp
      have hnotin : c (H + 1 + j) ∉ s.sent := by
        intro hmem
        have hmemf : c (H + 1 + j) ∈ s.sent.filter (fun b => decide (H < b.height)) :=
          List.mem_filter.mpr ⟨hmem, by simp only [hht, decide_eq_true_eq]; omega⟩
        rw [hf2] at hmemf
        obtain ⟨i, hi, heq⟩ := List.mem_map.mp hmemf
        have hi' := List.mem_range'_1.mp hi
        have hih : (c i).height = (c (H + 1 + j)).height := by rw [heq]
        rw [hc.height_eq i (by omega), hht] at hih
        omega
      have harr : H + 1 + (j + 1) = H + 1 + j + 1 := by omega
      obtain ⟨hc1, hc2, hc3⟩ := ih (j + 1) k
        ({ core := ⟨s.core.stored ++ [c (H + 1 + j)], [(ip, now)]⟩,
           queue := s.queue, sent := s.sent ++ [c (H + 1 + j)] } : LoopState)
        (by rw [hcnt] at hn; omega) hk
        (by rw [harr]
            show s.core.stored ++ [c (H + 1 + j)] = chainPrefix c (H + 1 + j + 1)
            rw [hst, chainPrefix_succ])
        rfl
        (by simpa using hq)
        (by show (s.sent ++ [c (H + 1 + j)]).filter (fun b => decide (b.height ≤ H)) = _
            rw [List.filter_append, hf1]
            simp [hht]
            omega)
        (by show (s.sent ++ [c (H + 1 + j)]).filter (fun b => decide (H < b.height)) = _
            rw [List.filter_append, hf2]
            have hr : List.range' (H + 1) (j + 1) = List.range' (H + 1) j ++ [H + 1 + j] :=
              List.range'_1_concat (H + 1) j
            rw [hr]
            simp [hht]
            omega)
        (by refine List.nodup_append.mpr ⟨hnd, by simp, ?_⟩
            intro a ha hb
            rw [List.mem_singleton] at hb
            exact hnotin (hb ▸ ha))
        (by rw [harr]; exact hv)
      rw [runLoop, hstep]
      refine ⟨?_, ?_, hc3⟩
      · rw [hc1, hcat]
      · rw [hc2, hcnt]
        have : j + 1 + countCommits evs = j + (countCommits evs + 1) := by omega
        rw [this]
    | catchup =>
      intro j k s hn hk hst hpeers hq hf1 hf2 hnd hv
      rw [ValidFrom] at hv
      have hcnt : countCommits (LoopEv.catchup :: evs) = countCommits evs := by
        simp [countCommits, isCommit]
      have hcat : countCatchup (LoopEv.catchup :: evs) = countCatchup evs + 1 := by
        simp [countCatchup, isCommit]
      have hn' : H + 1 + j + countCommits evs ≤ n := by rw [hcnt] at hn; exact hn
      rcases hq with hq | ⟨hkmax, hq⟩
      · by_cases hkmax : k = H + 1 - h
        · have hempty : H + 1 - h - k = 0 := by omega
          rw [hempty] at hq
          have hq' : s.queue = some [] := by simpa using hq
          have hstep : loopStep now ip s LoopEv.catchup = { s with queue := none } := by
            simp [loopStep, catchup_send_step, hq']
          obtain ⟨hc1, hc2, hc3⟩ := ih j k ({ s with queue := none } : LoopState)
            hn' hk hst hpeers (Or.inr ⟨hkmax, rfl⟩) hf1 hf2 hnd hv
          rw [runLoop, hstep]
          refine ⟨?_, by rw [hc2, hcnt], hc3⟩
          rw [hc1, hcat]
          have hmm : min (k + countCatchup evs) (H + 1 - h)
              = min (k + (countCatchup evs + 1)) (H + 1 - h) := by omega
          rw [← hmm]
        · have hklt : k < H + 1 - h := lt_of_le_of_ne hk hkmax
          have hkH : h + k ≤ H := by omega
          have hkn : h + k < n := by omega
          have hL : H + 1 - h - k = (H + 1 - h - (k + 1)) + 1 := by omega
          rw [hL, List.range'_succ] at hq
          have hgl : ((((h + k) :: List.range' (h + k + 1) (H + 1 - h - (k + 1))).map c).map
              (fun b => b.hash)).reverse.getLast? = some ((c (h + k)).hash) := by
            rw [List.getLast?_reverse]
            simp
          have hget : blocksGet s.core.stored (c (h + k)).hash = some (c (h + k)) := by
            rw [hst]
            exact blocksGet_chainPrefix hc (by omega) (by omega)
          have hfind : (s.core.stream_peer_metadata.find? (fun p => p.1 == ip)).isSome = true := by
            rw [hpeers]
            simp
          have hdrop : ((((h + k) :: List.range' (h + k + 1) (H + 1 - h - (k + 1))).map c).map
              (fun b => b.hash)).reverse.dropLast
              = (((List.range' (h + k + 1) (H + 1 - h - (k + 1))).map c).map
                 (fun b => b.hash)).reverse := by
            simp only [List.map_cons, List.reverse_cons]
            rw [List.dropLast_concat]
          have hstep : loopStep now ip s LoopEv.catchup
              = { s with
                  queue := some ((((List.range' (h + k + 1) (H + 1 - h - (k + 1))).map c).map
                    (fun b => b.hash)).reverse),
                  sent := s.sent ++ [c (h + k)] } := by
            simp only [loopStep, catchup_send_step, hq, hgl, hget, hfind, if_true, hdrop]
          have hht : (c (h + k)).height = h + k := hc.height_eq _ hkn
          have hnotin : c (h + k) ∉ s.sent := by
            intro hmem
            have hmemf : c (h + k) ∈ s.sent.filter (fun b => decide (b.height ≤ H)) :=
              List.mem_filter.mpr ⟨hmem, by simp only [hht, decide_eq_true_eq]; omega⟩
            rw [hf1] at hmemf
            obtain ⟨i, hi, heq⟩ := List.mem_map.mp hmemf
            have hi' := List.mem_range'_1.mp hi
            have hih : (c i).height = (c (h + k)).height := by rw [heq]
            rw [hc.height_eq i (by omega), hht] at hih
            omega
          have harr : h + (k + 1) = h + k + 1 := by omega
          obtain ⟨hc1, hc2, hc3⟩ := ih j (k + 1)
            ({ s with
                queue := some ((((List.range' (h + k + 1) (H + 1 - h - (k + 1))).map c).map
                  (fun b => b.hash)).reverse),
                sent := s.sent ++ [c (h + k)] } : LoopState)
            hn' (by omega) hst hpeers
            (Or.inl (by rw [harr]))
            (by show (s.sent ++ [c (h + k)]).filter (fun b => decide (b.height ≤ H)) = _
                rw [List.filter_append, hf1]
                have hr : List.range' h (k + 1) = List.range' h k ++ [h + k] :=
                  List.range'_1_concat h k
                rw [hr]
                simp [hht]
                omega)
            (by show (s.sent ++ [c (h + k)]).filter (fun b => decide (H < b.height)) = _
                rw [List.filter_append, hf2]
                simp [hht]
                omega)
            (by refine List.nodup_append.mpr ⟨hnd, by simp, ?_⟩
                intro a ha hb
                rw [List.mem_singleton] at hb
                exact hnotin (hb ▸ ha))
            hv
          rw [runLoop, hstep]
          refine ⟨?_, by rw [hc2, hcnt], hc3⟩
          rw [hc1, hcat]
          have hmm : k + 1 + countCatchup evs = k + (countCatchup evs + 1) := by omega
          rw [hmm]
      · have hstep : loopStep now ip s LoopEv.catchup = s := by
          cases s with
          | mk core queue sent =>
            simp only at hq
            simp [loopStep, catchup_send_step, hq]
        obtain ⟨hc1, hc2, hc3⟩ := ih j k s hn' hk hst hpeers (Or.inr ⟨hkmax, hq⟩)
          hf1 hf2 hnd hv
        rw [runLoop, hstep]
        refine ⟨?_, by rw [hc2, hcnt], hc3⟩
        rw [hc1, hcat]
        have hmm : min (k + countCatchup evs) (H + 1 - h)
            = min (k + (countCatchup evs + 1)) (H + 1 - h) := by omega
        rw [← hmm]

theorem start_streaming_snapshot_chain {c : Nat → SignedBlock} {n : Nat} (hc : IsChain c n)
    {H : Nat} (hn : H + 1 ≤ n) (h : Nat) (s0 : DAState)
    (hst : s0.core.stored = chainPrefix c (H + 1)) (ip : String) (now : Nat) :
    (start_streaming_to_peer now s0 h ip).2.1
      = (((List.range' h (H + 1 - h)).map c).map (fun b => b.hash)).reverse := by
  simp only [start_streaming_to_peer]
  rw [hst, blocksLast_chainPrefix hc H hn]
  simp only [Option.map_some', Option.getD_some]
  rw [hc.height_eq H (by omega), blocksRange_chainPrefix hc hn h]

/-- The event-loop state just after a peer completed the handshake: the
`Core` with the peer registered, the pending snapshot message, and no block
delivered yet. -/
def enrolledLoopState (now : Nat) (s0 : DAState) (h : Nat) (ip : String) : LoopState :=
  ⟨(start_streaming_to_peer now s0 h ip).1.core,
   some (start_streaming_to_peer now s0 h ip).2.1, []⟩

/-- C2.  For a peer that completed the handshake with `BlockHeight h` on a
store holding the chain prefix of heights `0..H`, and for every interleaving
of catch-up send rounds and chain commits afterwards (enough catch-up rounds
to drain the snapshot), the blocks delivered to that peer are exactly the
snapshotted stored range `[h, H + 1)` in ascending height order plus every
block committed after enrollment in commit order, and no block is delivered
twice. -/
theorem claim_C2_stream_delivery (c : Nat → SignedBlock) (n : Nat) (hc : IsChain c n)
    (ip : String) (now : Nat) (H h : Nat) (evs : List LoopEv) (s0 : DAState)
    (hh : h ≤ H + 1)
    (hst : s0.core.stored = chainPrefix c (H + 1))
    (hpeers : s0.core.stream_peer_metadata = [])
    (hn : H + 1 + countCommits evs ≤ n)
    (hvalid : ValidFrom c (H + 1) evs = true)
    (hcat : H + 1 - h ≤ countCatchup evs) :
    (runLoop now ip (enrolledLoopState now s0 h ip) evs).sent.filter
        (fun b => decide (b.height ≤ H)) = (List.range' h (H + 1 - h)).map c ∧
    (runLoop now ip (enrolledLoopState now s0 h ip) evs).sent.filter
        (fun b => decide (H < b.height)) = commitBlocks evs ∧
    (runLoop now ip (enrolledLoopState now s0 h ip) evs).sent.Nodup := by
  have hinit := runLoop_inv hc ip now H h hh evs 0 0 (enrolledLoopState now s0 h ip)
    (by simpa using hn) (by omega)
    (by show (start_streaming_to_peer now s0 h ip).1.core.stored = chainPrefix c (H + 1 + 0)
        simp [start_streaming_to_peer, hst])
    (by show (start_streaming_to_peer now s0 h ip).1.core.stream_peer_metadata = [(ip, now)]
        simp [start_streaming_to_peer, insertPeer, hpeers])
    (Or.inl (by
        show some (start_streaming_to_peer now s0 h ip).2.1 = _
        rw [start_streaming_snapshot_chain hc (by omega) h s0 hst ip now]
        norm_num))
    (by simp [enrolledLoopState]) (by simp [enrolledLoopState])
    (by simp [enrolledLoopState])
    (by simpa using hvalid)
  obtain ⟨h1, h2, h3⟩ := hinit
  refine ⟨?_, ?_, h3⟩
  · rw [h1]
    have hmin : min (0 + countCatchup evs) (H + 1 - h) = H + 1 - h := by omega
    rw [hmin]
  · rw [h2, commitBlocks_of_validFrom c evs (H + 1) hvalid]
    norm_num

/-- Witness for C2: store `0..2`, handshake at height 1, one catch-up round,
one commit of block 3, one more catch-up round. -/
theorem claim_C2_stream_delivery_witness :
    ValidFrom simpleChain 3
        [LoopEv.catchup, LoopEv.commit (simpleChain 3), LoopEv.catchup] = true ∧
    (runLoop 0 "p"
        (enrolledLoopState 0 (⟨⟨chainPrefix simpleChain 3, []⟩, [], false, none, none⟩ : DAState)
          1 "p")
        [LoopEv.catchup, LoopEv.commit (simpleChain 3), LoopEv.catchup]).sent.Nodup ∧
    (runLoop 0 "p"
        (enrolledLoopState 0 (⟨⟨chainPrefix simpleChain 3, []⟩, [], false, none, none⟩ : DAState)
          1 "p")
        [LoopEv.catchup, LoopEv.commit (simpleChain 3), LoopEv.catchup]).sent.filter
        (fun b => decide (2 < b.height))
      = commitBlocks [LoopEv.catchup, LoopEv.commit (simpleChain 3), LoopEv.catchup] :=
  ⟨by decide,
   (claim_C2_stream_delivery simpleChain 5 (simpleChain_isChain 5) "p" 0 2 1
      [LoopEv.catchup, LoopEv.commit (simpleChain 3), LoopEv.catchup]
      (⟨⟨chainPrefix simpleChain 3, []⟩, [], false, none, none⟩ : DAState)
      (by decide) rfl rfl (by decide) (by decide) (by decide)).2.2,
   (claim_C2_stream_delivery simpleChain 5 (simpleChain_isChain 5) "p" 0 2 1
      [LoopEv.catchup, LoopEv.commit (simpleChain 3), LoopEv.catchup]
      (⟨⟨chainPrefix simpleChain 3, []⟩, [], false, none, none⟩ : DAState)
      (by decide) rfl rfl (by decide) (by decide) (by decide)).2.1⟩

end DAcore
